import Mathlib

/-!
# Flag lookup and alias normalisation of `cli/context.go`

A shallow embedding of `vendor/github.com/minio/cli/context.go`.

* A `flag.FlagSet` is embedded as its two maps: `formal` (declared name to
  value cell) and `actual` (the names that were explicitly set, the ones
  `Visit` enumerates).
* A `flag.Value` is an interface; its methods (`String`, `Set`) and the two
  dynamic type tests that `context.go` performs (`*StringSlice`, `*IntSlice`)
  are the fields of `ValueOps`, so every result holds for every
  implementation of the interface.
* Mutation in place becomes explicit state passing: `normalizeFlags` returns
  the error, the store it leaves behind and the list of `set.Set` calls it
  issued.
* A failed type assertion (a Go panic) is `none`.
* In `FlagSet` every name owns its value; `PtrSet` is the store in which names
  hold their value by address and can share it, and `normalizeFlagsPtr` is
  `normalizeFlags` over it.
-/

namespace Cli

/-! ## Strings: `strings.Split(s, ",")` and `strings.Trim(s, " ")` -/

/-- Pieces of a character list between commas; the first argument is the piece
being read, in reverse. -/
def splitAux : List Char → List Char → List (List Char)
  | cur, [] => [cur.reverse]
  | cur, c :: cs => if c = ',' then cur.reverse :: splitAux [] cs else splitAux (c :: cur) cs

/-- Go `strings.Split(s, ",")`: the substrings between commas, at least one. -/
def Split (s : String) : List String :=
  (splitAux [] s.data).map String.mk

/-- Go `strings.Trim(s, " ")`: drop all leading and trailing spaces. -/
def Trim (s : String) : String :=
  String.mk (((s.data.dropWhile (fun c => c == ' ')).reverse.dropWhile (fun c => c == ' ')).reverse)

/-! ## The raw flag store -/

/-- Methods of the `flag.Value` interface, and the dynamic type tests used by
`context.go`, over an arbitrary carrier `V` of value cells.
`valueSet v s` is `v.Set(s)`: the cell afterwards and whether the call returned
no error. `stringSlice v` is the type assertion `v.(*StringSlice)` followed by
`.Value()`: `none` when the dynamic type is different. -/
structure ValueOps (V : Type) where
  valueString : V → String
  valueSet : V → String → V × Bool
  stringSlice : V → Option (List String)
  intSlice : V → Option (List Int)

/-- Go `flag.FlagSet`, as far as `context.go` observes it: the declared flags
(first entry of a name is the map entry), the explicitly set names, and the
leftover positional arguments. -/
structure FlagSet (V : Type) where
  formal : List (String × V)
  actual : List String
  args : List String

variable {V : Type}

/-- Map lookup in `formal`. -/
def lookupCell : List (String × V) → String → Option V
  | [], _ => none
  | (k, v) :: rest, name => if k = name then some v else lookupCell rest name

/-- Replace the cell stored under `name` (the map entry), if any. -/
def storeCell : List (String × V) → String → V → List (String × V)
  | [], _, _ => []
  | (k, v) :: rest, name, w =>
    if k = name then (k, w) :: rest else (k, v) :: storeCell rest name w

/-- Go `(*FlagSet).Lookup`: the declared flag of that name, or nil. -/
def FlagSet.Lookup (set : FlagSet V) (name : String) : Option V :=
  lookupCell set.formal name

/-- Go `(*FlagSet).Set`: fails on an undeclared name; otherwise calls the
value's `Set`, and records the name in `actual` when that returned no error.
Returns the store afterwards and whether the call succeeded. -/
def FlagSet.Set (ops : ValueOps V) (set : FlagSet V) (name value : String) : FlagSet V × Bool :=
  match set.Lookup name with
  | none => (set, false)
  | some v =>
    let r := ops.valueSet v value
    if r.2 then
      ({ set with formal := storeCell set.formal name r.1,
                  actual := if name ∈ set.actual then set.actual else set.actual ++ [name] }, true)
    else
      ({ set with formal := storeCell set.formal name r.1 }, false)

/-- Go `(*FlagSet).Visit` collecting the names, as `normalizeFlags` and `IsSet`
do: the membership map of the explicitly set names. -/
def FlagSet.Visit (set : FlagSet V) : List String :=
  set.actual

/-- Go `(*FlagSet).NFlag`. -/
def FlagSet.NFlag (set : FlagSet V) : Nat :=
  set.actual.length

/-! ## `copyFlag` and `normalizeFlags` -/

/-- A declared option of the cli package; `context.go` only calls `getName`,
which returns the comma separated names. -/
structure Flag where
  Name : String
deriving DecidableEq, Repr

/-- The interface method `getName`. -/
def Flag.getName (f : Flag) : String :=
  f.Name

/-- State threaded through normalisation: the store, and the `set.Set(name,
value)` calls issued so far, oldest first. -/
structure NormState (V : Type) where
  set : FlagSet V
  calls : List (String × String)

/-- Source `copyFlag(name, ff, set)`. The pointer `ff` is the name of the entry
of `formal` it points to, so its value is read when the copy is made. A
`*StringSlice` is skipped; any other value is rendered and written to `name`,
ignoring the result of `set.Set`. -/
def copyFlag (ops : ValueOps V) (name : String) (ff : String) (st : NormState V) : NormState V :=
  match st.set.Lookup ff with
  | none => st
  | some v =>
    match ops.stringSlice v with
    | some _ => st
    | none =>
      { set := (st.set.Set ops name (ops.valueString v)).1,
        calls := st.calls ++ [(name, ops.valueString v)] }

/-- Text of the error of `normalizeFlags`. -/
def conflictMessage (name ffName : String) : String :=
  "Cannot use two forms of the same flag: " ++ name ++ " " ++ ffName

/-- First inner loop of `normalizeFlags`: walk the names of one declaration,
keeping in `ff` the flag of the explicitly set name met so far. A second
explicitly set name is the error. -/
def findSetFlag (visited : List String) (set : FlagSet V) :
    List String → Option String → Except String (Option String)
  | [], ff => .ok ff
  | part :: rest, ff =>
    let name := Trim part
    if name ∈ visited then
      match ff with
      | some ffName => .error (conflictMessage name ffName)
      | none =>
        findSetFlag visited set rest (match set.Lookup name with
          | some _ => some name
          | none => none)
    else findSetFlag visited set rest ff

/-- Second inner loop of `normalizeFlags`: copy to every name of the
declaration that was not explicitly set. -/
def copyToUnset (ops : ValueOps V) (visited : List String) (ff : String) :
    List String → NormState V → NormState V
  | [], st => st
  | part :: rest, st =>
    let name := Trim part
    if name ∈ visited then copyToUnset ops visited ff rest st
    else copyToUnset ops visited ff rest (copyFlag ops name ff st)

/-- Outer loop of `normalizeFlags` over the declarations, with the `visited`
map computed once before it. -/
def normalizeLoop (ops : ValueOps V) (visited : List String) :
    List Flag → NormState V → Option String × NormState V
  | [], st => (none, st)
  | f :: rest, st =>
    let parts := Split f.getName
    if parts.length = 1 then normalizeLoop ops visited rest st
    else
      match findSetFlag visited st.set parts none with
      | .error e => (some e, st)
      | .ok none => normalizeLoop ops visited rest st
      | .ok (some ff) => normalizeLoop ops visited rest (copyToUnset ops visited ff parts st)

/-- Source `normalizeFlags(flags, set)`: the returned error (`none` is nil),
and the store and issued overwrites at the moment it returns. -/
def normalizeFlags (ops : ValueOps V) (flags : List Flag) (set : FlagSet V) :
    Option String × NormState V :=
  normalizeLoop ops set.Visit flags { set := set, calls := [] }

/-! ## Typed accessors

`strconv.ParseBool` and `strconv.Atoi` are embedded below; the parsers of
durations and floating point numbers are arguments of their accessors. -/

/-- Go `strconv.ParseBool`. -/
def ParseBool (s : String) : Option Bool :=
  if s ∈ ["1", "t", "T", "TRUE", "true", "True"] then some true
  else if s ∈ ["0", "f", "F", "FALSE", "false", "False"] then some false
  else none

/-- Value of a list of decimal digits, most significant first; `none` on any
other character or on the empty list. -/
def digitsValue : List Char → Option Nat
  | [] => none
  | cs => cs.foldl (fun acc c =>
      match acc with
      | none => none
      | some n => if c.isDigit then some (10 * n + (c.toNat - 48)) else none) (some 0)

/-- Go `strconv.Atoi` on a 64-bit platform: an optional sign and decimal
digits, within the range of `int`. -/
def Atoi (s : String) : Option Int :=
  let signed : Bool × List Char :=
    match s.data with
    | '-' :: cs => (true, cs)
    | '+' :: cs => (false, cs)
    | cs => (false, cs)
  match digitsValue signed.2 with
  | none => none
  | some n =>
    let v : Int := if signed.1 then -(n : Int) else (n : Int)
    if -(2 : Int) ^ 63 ≤ v ∧ v < (2 : Int) ^ 63 then some v else none

/-- Source `lookupInt`. -/
def lookupInt (ops : ValueOps V) (name : String) (set : FlagSet V) : Int :=
  match set.Lookup name with
  | some v =>
    match Atoi (ops.valueString v) with
    | none => 0
    | some val => val
  | none => 0

/-- Source `lookupDuration`; `parseDuration` is Go `time.ParseDuration`, a
duration being its number of nanoseconds. -/
def lookupDuration (parseDuration : String → Option Int) (ops : ValueOps V) (name : String)
    (set : FlagSet V) : Int :=
  match set.Lookup name with
  | some v =>
    match parseDuration (ops.valueString v) with
    | some val => val
    | none => 0
  | none => 0

/-- Source `lookupFloat64`; `parseFloat` is Go `strconv.ParseFloat(s, 64)` into
a carrier `F` of the floating point numbers. -/
def lookupFloat64 {F : Type} [Zero F] (parseFloat : String → Option F) (ops : ValueOps V)
    (name : String) (set : FlagSet V) : F :=
  match set.Lookup name with
  | some v =>
    match parseFloat (ops.valueString v) with
    | none => 0
    | some val => val
  | none => 0

/-- Source `lookupString`. -/
def lookupString (ops : ValueOps V) (name : String) (set : FlagSet V) : String :=
  match set.Lookup name with
  | some v => ops.valueString v
  | none => ""

/-- Source `lookupStringSlice`. The result is `none` when the unchecked type
assertion `f.Value.(*StringSlice)` panics; a nil slice is the empty list. -/
def lookupStringSlice (ops : ValueOps V) (name : String) (set : FlagSet V) :
    Option (List String) :=
  match set.Lookup name with
  | some v => ops.stringSlice v
  | none => some []

/-- Source `lookupIntSlice`. The result is `none` when the unchecked type
assertion `f.Value.(*IntSlice)` panics; a nil slice is the empty list. -/
def lookupIntSlice (ops : ValueOps V) (name : String) (set : FlagSet V) : Option (List Int) :=
  match set.Lookup name with
  | some v => ops.intSlice v
  | none => some []

/-- Source `lookupGeneric`: the value cell itself, or nil. -/
def lookupGeneric (name : String) (set : FlagSet V) : Option V :=
  set.Lookup name

/-- Source `lookupBool`. -/
def lookupBool (ops : ValueOps V) (name : String) (set : FlagSet V) : Bool :=
  match set.Lookup name with
  | some v =>
    match ParseBool (ops.valueString v) with
    | none => false
    | some val => val
  | none => false

/-- Source `lookupBoolT`. -/
def lookupBoolT (ops : ValueOps V) (name : String) (set : FlagSet V) : Bool :=
  match set.Lookup name with
  | some v =>
    match ParseBool (ops.valueString v) with
    | none => true
    | some val => val
  | none => false

/-! ## Context -/

/-- The part of the cli `App` that `context.go` reads. -/
structure App where
  Flags : List Flag

/-- The part of the cli `Command` that `context.go` reads. -/
structure Command where
  Flags : List Flag

/-- Source `Context`. The two lazily made maps are `none` while nil. -/
structure Context (V : Type) where
  App : App
  Command : Command
  flagSet : FlagSet V
  globalSet : FlagSet V
  setFlags : Option (List String)
  globalSetFlags : Option (List String)

/-- Source `NewContext`: the command and both maps are left at their zero
value. -/
def NewContext (app : App) (set globalSet : FlagSet V) : Context V :=
  { App := app, Command := { Flags := [] }, flagSet := set, globalSet := globalSet,
    setFlags := none, globalSetFlags := none }

/-- Source `Context.BoolT`. Every typed accessor of the context is, like this
one, the lookup function of its type applied to `c.flagSet`, or to
`c.globalSet` for the accessors named `Global...`. -/
def Context.BoolT (ops : ValueOps V) (c : Context V) (name : String) : Bool :=
  lookupBoolT ops name c.flagSet

/-- Source `Context.GlobalBool`. -/
def Context.GlobalBool (ops : ValueOps V) (c : Context V) (name : String) : Bool :=
  lookupBool ops name c.globalSet

/-- Source `Context.NumFlags`. -/
def Context.NumFlags (c : Context V) : Nat :=
  c.flagSet.NFlag

/-- Source `Context.IsSet`: the answer and the context afterwards (the map is
made on the first call only). -/
def Context.IsSet (c : Context V) (name : String) : Bool × Context V :=
  match c.setFlags with
  | none => (decide (name ∈ c.flagSet.Visit), { c with setFlags := some c.flagSet.Visit })
  | some m => (decide (name ∈ m), c)

/-- Source `Context.GlobalIsSet`. -/
def Context.GlobalIsSet (c : Context V) (name : String) : Bool × Context V :=
  match c.globalSetFlags with
  | none =>
    (decide (name ∈ c.globalSet.Visit), { c with globalSetFlags := some c.globalSet.Visit })
  | some m => (decide (name ∈ m), c)

/-- The element `strings.Split(s, ",")[0]`. -/
def firstName (f : Flag) : String :=
  (Split f.getName).headD ""

/-- The loop shared by `FlagNames` and `GlobalFlagNames`: append the first name
of each declaration to `names`, passing over the names that `skip` rejects. -/
def flagNamesLoop (skip : String → Bool) : List Flag → List String → List String
  | [], names => names
  | flag :: rest, names =>
    let name := firstName flag
    if skip name then flagNamesLoop skip rest names
    else flagNamesLoop skip rest (names ++ [name])

/-- Source `Context.FlagNames`. -/
def Context.FlagNames (c : Context V) : List String :=
  flagNamesLoop (fun name => name == "help") c.Command.Flags []

/-- Source `Context.GlobalFlagNames`. -/
def Context.GlobalFlagNames (c : Context V) : List String :=
  flagNamesLoop (fun name => name == "help" || name == "version") c.App.Flags []

/-! ## Positional arguments

Indexes are Go `int`s; indexing outside the slice panics, which is `none`. -/

/-- Source `Args`. -/
abbrev Args := List String

/-- Go slice indexing `a[n]`. -/
def Args.index (a : Args) (n : Int) : Option String :=
  if 0 ≤ n then a.get? n.toNat else none

/-- Source `Context.Args`. -/
def Context.Args (c : Context V) : Args :=
  c.flagSet.args

/-- Source `Args.Get`. -/
def Args.Get (a : Args) (n : Int) : Option String :=
  if (a.length : Int) > n then a.index n else some ""

/-- Source `Args.First`. -/
def Args.First (a : Args) : Option String :=
  a.Get 0

/-- Source `Args.Last`. -/
def Args.Last (a : Args) : Option String :=
  a.Get ((a.length : Int) - 1)

/-- Source `Args.Tail`. -/
def Args.Tail (a : Args) : Args :=
  if a.length ≥ 2 then a.drop 1 else []

/-- Source `Args.Present`. -/
def Args.Present (a : Args) : Bool :=
  a.length != 0

/-- Source `Args.Swap`: the returned error and the slice afterwards, or `none`
when indexing panics. -/
def Args.Swap (a : Args) (src dst : Int) : Option (Option String × Args) :=
  if src ≥ (a.length : Int) ∨ dst ≥ (a.length : Int) then some (some "index out of range", a)
  else
    match a.index src, a.index dst with
    | some x, some y => some (none, (a.set src.toNat y).set dst.toNat x)
    | _, _ => none

/-! ## Concrete value cells -/

/-- Value cells of the kinds used in the examples: the standard library's
`*stringValue` and `*boolValue`, and the cli package's `*StringSlice` and
`*IntSlice`. -/
inductive GoValue
  | str (s : String)
  | bool (b : Bool)
  | stringSlice (xs : List String)
  | intSlice (xs : List Int)
deriving DecidableEq, Repr

/-- Go `fmt.Sprintf` of a slice with one verb per element: the elements
separated by a space, in square brackets. -/
def sprintSlice (xs : List String) : String :=
  "[" ++ " ".intercalate xs ++ "]"

/-- The `String` method of each kind of cell. -/
def goString : GoValue → String
  | .str s => s
  | .bool b => if b then "true" else "false"
  | .stringSlice xs => sprintSlice xs
  | .intSlice xs => sprintSlice (xs.map toString)

/-- The `Set` method of each kind of cell: a string is stored, a boolean is
parsed (and stored also when parsing fails, as false), a string list is
appended to, an integer list is appended to when the text is an integer. -/
def goSet : GoValue → String → GoValue × Bool
  | .str _, s => (.str s, true)
  | .bool _, s =>
    match ParseBool s with
    | some b => (.bool b, true)
    | none => (.bool false, false)
  | .stringSlice xs, s => (.stringSlice (xs ++ [s]), true)
  | .intSlice xs, s =>
    match Atoi s with
    | some n => (.intSlice (xs ++ [n]), true)
    | none => (.intSlice xs, false)

/-- The `flag.Value` interface over `GoValue`. -/
def goOps : ValueOps GoValue where
  valueString := goString
  valueSet := goSet
  stringSlice := fun v => match v with
    | .stringSlice xs => some xs
    | _ => none
  intSlice := fun v => match v with
    | .intSlice xs => some xs
    | _ => none

/-! ## Vocabulary of the statements -/

/-- The names of a declaration, as `normalizeFlags` reads them: the comma
separated parts, each trimmed. -/
def Flag.names (f : Flag) : List String :=
  (Split f.getName).map Trim

/-- The trimmed parts that are explicitly set, in name order. -/
def explicitOf (visited : List String) (parts : List String) : List String :=
  (parts.map Trim).filter (fun n => decide (n ∈ visited))

/-- The names of a declaration that are in the explicit-set `visited`, in name
order (a name written twice counts twice). -/
def Flag.explicitNames (visited : List String) (f : Flag) : List String :=
  explicitOf visited (Split f.getName)

/-- Invariant of `flag.FlagSet`: only declared flags are ever recorded as
explicitly set (`actual` is filled by `Set` and by parsing, both of which look
the name up in `formal` first). -/
def FlagSet.WellFormed (set : FlagSet V) : Prop :=
  ∀ n ∈ set.actual, (set.Lookup n).isSome = true

/-- Every name of `visited` is declared in the store. -/
def Declared (visited : List String) (set : FlagSet V) : Prop :=
  ∀ n ∈ visited, (set.Lookup n).isSome = true

/-- The first inner loop of `normalizeFlags` on the explicitly set names only. -/
def resolve (set : FlagSet V) : List String → Option String → Except String (Option String)
  | [], ff => .ok ff
  | name :: _, some ffName => .error (conflictMessage name ffName)
  | name :: rest, none =>
    resolve set rest (match set.Lookup name with
      | some _ => some name
      | none => none)

/-- Store `t` agrees with store `s` on every name satisfying `keep` (same
cell, same explicit-set status), declares the same names, has at least the
explicit-set of `s`, and the same positional arguments. -/
def Frame (keep : String → Prop) (s t : FlagSet V) : Prop :=
  (∀ n, keep n → t.Lookup n = s.Lookup n ∧ (n ∈ t.actual ↔ n ∈ s.actual)) ∧
  (∀ n, (t.Lookup n).isSome = (s.Lookup n).isSome) ∧
  (∀ n, n ∈ s.actual → n ∈ t.actual) ∧
  t.args = s.args

/-- A kind `K` of value cell is scalar when it is not a string list and a cell
of the kind accepts the rendering of any cell of the kind: the overwrite
succeeds and leaves a cell of the kind that renders the same text. The
string, integer, boolean, duration and floating point cells of the standard
library are of this sort. -/
structure ScalarKind (ops : ValueOps V) (K : V → Prop) : Prop where
  notList : ∀ w, K w → ops.stringSlice w = none
  accepts : ∀ w w2, K w → K w2 →
    (ops.valueSet w (ops.valueString w2)).2 = true ∧
    K (ops.valueSet w (ops.valueString w2)).1 ∧
    ops.valueString (ops.valueSet w (ops.valueString w2)).1 = ops.valueString w2

/-- Name `n` holds a cell of kind `K` that renders `text`, and is recorded as
explicitly set. -/
def Copied (ops : ValueOps V) (K : V → Prop) (text : String) (n : String) (set : FlagSet V) :
    Prop :=
  ∃ w, set.Lookup n = some w ∧ K w ∧ ops.valueString w = text ∧ n ∈ set.actual

/-- The string cells of `GoValue`. -/
def isStr : GoValue → Prop
  | .str _ => True
  | _ => False

/-- The integer-list cells reject the rendering of an integer list and stay as
they were. This is a property of the cli package's `IntSlice`, whose `String`
renders the list in square brackets and whose `Set` appends the text only when
`strconv.Atoi` accepts it. -/
def IntSliceRejects (ops : ValueOps V) : Prop :=
  ∀ w w2, (ops.intSlice w).isSome = true → (ops.intSlice w2).isSome = true →
    ops.valueSet w (ops.valueString w2) = (w, false)

/-! ## Example stores -/

/-- Four string options `a`, `b`, `x`, `y`, of which `explicit` were given on
the command line. -/
def stringStore (explicit : List String) : FlagSet GoValue :=
  { formal := [("a", .str "va"), ("b", .str "vb"), ("x", .str "vx"), ("y", .str "vy")],
    actual := explicit, args := [] }

/-- Two integer-list cells `n` and `num`, with `n` given on the command line. -/
def intSliceStore : FlagSet GoValue :=
  { formal := [("n", .intSlice [1]), ("num", .intSlice [])], actual := ["n"], args := [] }

/-- Two string-list cells `s` and `str`, with `s` given on the command line. -/
def stringSliceStore : FlagSet GoValue :=
  { formal := [("s", .stringSlice ["u"]), ("str", .stringSlice [])], actual := ["s"],
    args := [] }

/-- A boolean option `t` holding true, and a string option `x` holding text that
is not a boolean. -/
def mixedStore : FlagSet GoValue :=
  { formal := [("t", .bool true), ("x", .str "notabool")], actual := ["x"], args := [] }

/-! ## A store whose names can share one value

In `FlagSet` every declared name owns its value cell, as the names of the
scalar options of the standard library do. A `flag.Value` is a pointer, though,
and several names can hold the same one: the cli package registers the one
value of a list-valued or `Generic` option under each of its names. `PtrSet`
keeps the addresses, and `normalizeFlagsPtr` is `normalizeFlags` over it. -/

/-- Go `flag.FlagSet` with the values held by address: `names.formal` maps a
declared name to the address of its `flag.Value`, `heap` maps an address to the
cell found there. -/
structure PtrSet (V : Type) where
  names : FlagSet Nat
  heap : List (Nat × V)

/-- The cell at an address. -/
def heapGet : List (Nat × V) → Nat → Option V
  | [], _ => none
  | (q, v) :: rest, p => if q = p then some v else heapGet rest p

/-- Replace the cell at an address. -/
def heapPut : List (Nat × V) → Nat → V → List (Nat × V)
  | [], _, _ => []
  | (q, v) :: rest, p, w => if q = p then (q, w) :: rest else (q, v) :: heapPut rest p w

/-- The value of the flag that `Lookup` finds under `name`. -/
def PtrSet.value (set : PtrSet V) (name : String) : Option V :=
  match set.names.Lookup name with
  | none => none
  | some p => heapGet set.heap p

/-- Go `(*FlagSet).Set` on a store with addresses: the value's `Set` changes the
cell at the address held by `name`, and so the value of every name holding
that address. -/
def PtrSet.Set (ops : ValueOps V) (set : PtrSet V) (name value : String) : PtrSet V × Bool :=
  match set.names.Lookup name with
  | none => (set, false)
  | some p =>
    match heapGet set.heap p with
    | none => (set, false)
    | some v =>
      let r := ops.valueSet v value
      if r.2 then
        ({ names := { set.names with
                      actual := if name ∈ set.names.actual then set.names.actual
                                else set.names.actual ++ [name] },
           heap := heapPut set.heap p r.1 }, true)
      else
        ({ set with heap := heapPut set.heap p r.1 }, false)

/-- Source `copyFlag` over a `PtrSet`. -/
def copyFlagPtr (ops : ValueOps V) (name : String) (ff : String) (set : PtrSet V) : PtrSet V :=
  match set.value ff with
  | none => set
  | some v =>
    match ops.stringSlice v with
    | some _ => set
    | none => (set.Set ops name (ops.valueString v)).1

/-- Second inner loop of `normalizeFlags` over a `PtrSet`. -/
def copyToUnsetPtr (ops : ValueOps V) (visited : List String) (ff : String) :
    List String → PtrSet V → PtrSet V
  | [], set => set
  | part :: rest, set =>
    let name := Trim part
    if name ∈ visited then copyToUnsetPtr ops visited ff rest set
    else copyToUnsetPtr ops visited ff rest (copyFlagPtr ops name ff set)

/-- Outer loop of `normalizeFlags` over a `PtrSet`; the first inner loop only
looks names up, so it is `findSetFlag` on the names. -/
def normalizeLoopPtr (ops : ValueOps V) (visited : List String) :
    List Flag → PtrSet V → Option String × PtrSet V
  | [], set => (none, set)
  | f :: rest, set =>
    let parts := Split f.getName
    if parts.length = 1 then normalizeLoopPtr ops visited rest set
    else
      match findSetFlag visited set.names parts none with
      | .error e => (some e, set)
      | .ok none => normalizeLoopPtr ops visited rest set
      | .ok (some ff) => normalizeLoopPtr ops visited rest (copyToUnsetPtr ops visited ff parts set)

/-- Source `normalizeFlags` over a `PtrSet`: the returned error and the store at
the moment it returns. -/
def normalizeFlagsPtr (ops : ValueOps V) (flags : List Flag) (set : PtrSet V) :
    Option String × PtrSet V :=
  normalizeLoopPtr ops set.names.Visit flags set

/-- Source `lookupString` over a `PtrSet`. -/
def lookupStringPtr (ops : ValueOps V) (name : String) (set : PtrSet V) : String :=
  match set.value name with
  | some v => ops.valueString v
  | none => ""

/-- A `Generic` value written by a user of the package: it collects the texts
it is given, and renders them joined by commas. -/
def joinOps : ValueOps (List String) where
  valueString := fun xs => ",".intercalate xs
  valueSet := fun xs s => (xs ++ [s], true)
  stringSlice := fun _ => none
  intSlice := fun _ => none

/-- One collecting value, holding "1", registered under the two names of the
declaration "g, gen"; `g` was given on the command line. -/
def sharedStore : PtrSet (List String) :=
  { names := { formal := [("g", 0), ("gen", 0)], actual := ["g"], args := [] },
    heap := [(0, ["1"])] }

/-- Two collecting values, one under each name of the declaration "g, gen";
`g` was given on the command line. -/
def ownedStore : PtrSet (List String) :=
  { names := { formal := [("g", 0), ("gen", 1)], actual := ["g"], args := [] },
    heap := [(0, ["1"]), (1, [])] }

/-! ## The store: lookup after an overwrite -/

theorem lookupCell_storeCell_ne (l : List (String × V)) (name n : String) (w : V)
    (h : n ≠ name) : lookupCell (storeCell l name w) n = lookupCell l n := by
  induction l with
  | nil => rfl
  | cons kv rest ih =>
    obtain ⟨k, v⟩ := kv
    by_cases hk : k = name
    · have hkn : ¬ k = n := fun e => h (e.symm.trans hk)
      simp only [storeCell, if_pos hk, lookupCell, if_neg hkn]
    · simp only [storeCell, if_neg hk, lookupCell, ih]

theorem lookupCell_storeCell_self (l : List (String × V)) (name : String) (v w : V)
    (h : lookupCell l name = some v) : lookupCell (storeCell l name w) name = some w := by
  induction l with
  | nil => simp [lookupCell] at h
  | cons kv rest ih =>
    obtain ⟨k, u⟩ := kv
    by_cases hk : k = name
    · simp [storeCell, lookupCell, hk]
    · simp [lookupCell, hk] at h
      simp [storeCell, lookupCell, hk, ih h]

theorem lookupCell_storeCell_isSome (l : List (String × V)) (name n : String) (w : V) :
    (lookupCell (storeCell l name w) n).isSome = (lookupCell l n).isSome := by
  by_cases h : n = name
  · subst h
    cases hl : lookupCell l n with
    | none =>
      have : storeCell l n w = l := by
        induction l with
        | nil => rfl
        | cons kv rest ih =>
          obtain ⟨k, u⟩ := kv
          by_cases hk : k = n
          · simp [lookupCell, hk] at hl
          · simp [lookupCell, hk] at hl
            simp [storeCell, hk, ih hl]
      rw [this, hl]
    | some v => rw [lookupCell_storeCell_self l n v w hl]; rfl
  · rw [lookupCell_storeCell_ne l name n w h]

theorem Frame.refl (keep : String → Prop) (s : FlagSet V) : Frame keep s s :=
  ⟨fun _ _ => ⟨rfl, Iff.rfl⟩, fun _ => rfl, fun _ h => h, rfl⟩

theorem Frame.trans {keep : String → Prop} {s t u : FlagSet V} (h₁ : Frame keep s t)
    (h₂ : Frame keep t u) : Frame keep s u := by
  refine ⟨fun n hn => ?_, fun n => ?_, fun n hn => ?_, ?_⟩
  · exact ⟨((h₂.1 n hn).1).trans (h₁.1 n hn).1, (h₂.1 n hn).2.trans (h₁.1 n hn).2⟩
  · exact (h₂.2.1 n).trans (h₁.2.1 n)
  · exact h₂.2.2.1 n (h₁.2.2.1 n hn)
  · exact h₂.2.2.2.trans h₁.2.2.2

theorem Frame.weaken {keep keep2 : String → Prop} {s t : FlagSet V} (h : Frame keep s t)
    (hk : ∀ n, keep2 n → keep n) : Frame keep2 s t :=
  ⟨fun n hn => h.1 n (hk n hn), h.2.1, h.2.2.1, h.2.2.2⟩

theorem Set_frame (ops : ValueOps V) (set : FlagSet V) (name value : String) :
    Frame (fun n => n ≠ name) set (set.Set ops name value).1 := by
  unfold FlagSet.Set
  cases hl : set.Lookup name with
  | none => exact Frame.refl _ _
  | some v =>
    by_cases hr : (ops.valueSet v value).2 = true
    · simp only [hr, if_true]
      refine ⟨fun n hn => ⟨?_, ?_⟩, fun n => ?_, fun n hn => ?_, rfl⟩
      · exact lookupCell_storeCell_ne _ _ _ _ hn
      · by_cases hm : name ∈ set.actual
        · simp [hm]
        · simp only [if_neg hm, List.mem_append, List.mem_singleton]
          exact ⟨fun h => h.resolve_right hn, Or.inl⟩
      · exact lookupCell_storeCell_isSome _ _ _ _
      · by_cases hm : name ∈ set.actual
        · simpa [hm] using hn
        · simp only [if_neg hm, List.mem_append]
          exact Or.inl hn
    · simp only [hr]
      refine ⟨fun n hn => ⟨?_, Iff.rfl⟩, fun n => ?_, fun n hn => hn, rfl⟩
      · exact lookupCell_storeCell_ne _ _ _ _ hn
      · exact lookupCell_storeCell_isSome _ _ _ _

theorem Set_self (ops : ValueOps V) (set : FlagSet V) (name value : String) (w : V)
    (h : set.Lookup name = some w) :
    (set.Set ops name value).1.Lookup name = some (ops.valueSet w value).1 ∧
    ((ops.valueSet w value).2 = true → name ∈ (set.Set ops name value).1.actual) := by
  unfold FlagSet.Set
  rw [h]
  by_cases hr : (ops.valueSet w value).2 = true
  · simp only [hr, if_true]
    refine ⟨lookupCell_storeCell_self _ _ w _ h, fun _ => ?_⟩
    by_cases hm : name ∈ set.actual
    · simp [hm]
    · simp [hm]
  · simp only [hr]
    exact ⟨lookupCell_storeCell_self _ _ w _ h, fun hc => by simp at hc⟩

theorem copyFlag_frame (ops : ValueOps V) (name ff : String) (st : NormState V) :
    Frame (fun n => n ≠ name) st.set (copyFlag ops name ff st).set := by
  unfold copyFlag
  cases st.set.Lookup ff with
  | none => exact Frame.refl _ _
  | some v =>
    cases hs : ops.stringSlice v with
    | some _ => simp only [hs]; exact Frame.refl _ _
    | none => simp only [hs]; exact Set_frame ops st.set name _

theorem copyToUnset_frame (ops : ValueOps V) (visited : List String) (ff : String)
    (parts : List String) (st : NormState V) :
    Frame (fun n => n ∈ visited ∨ n ∉ parts.map Trim) st.set
      (copyToUnset ops visited ff parts st).set := by
  induction parts generalizing st with
  | nil => exact Frame.refl _ _
  | cons part rest ih =>
    by_cases hv : Trim part ∈ visited
    · simp only [copyToUnset, if_pos hv]
      refine (ih st).weaken fun n hn => ?_
      rcases hn with h | h
      · exact Or.inl h
      · exact Or.inr fun hm => h (by simp [hm])
    · simp only [copyToUnset, if_neg hv]
      have h1 : Frame (fun n => n ∈ visited ∨ n ∉ (part :: rest).map Trim) st.set
          (copyFlag ops (Trim part) ff st).set := by
        refine (copyFlag_frame ops (Trim part) ff st).weaken fun n hn => ?_
        rcases hn with h | h
        · exact fun e => hv (e ▸ h)
        · exact fun e => h (by simp [e])
      refine h1.trans ((ih _).weaken fun n hn => ?_)
      rcases hn with h | h
      · exact Or.inl h
      · exact Or.inr fun hm => h (by simp [hm])

/-! ## The first inner loop -/

theorem findSetFlag_eq_resolve (visited : List String) (set : FlagSet V) (parts : List String)
    (ff : Option String) :
    findSetFlag visited set parts ff = resolve set (explicitOf visited parts) ff := by
  induction parts generalizing ff with
  | nil => cases ff <;> rfl
  | cons part rest ih =>
    by_cases hv : Trim part ∈ visited
    · have he : explicitOf visited (part :: rest) = Trim part :: explicitOf visited rest := by
        simp [explicitOf, List.filter_cons, hv]
      rw [he]
      cases ff with
      | some a => simp [findSetFlag, resolve, hv]
      | none => simp only [findSetFlag, if_pos hv, resolve, ih]
    · have he : explicitOf visited (part :: rest) = explicitOf visited rest := by
        simp [explicitOf, List.filter_cons, hv]
      rw [he]
      simp only [findSetFlag, if_neg hv, ih]

theorem explicitOf_mem {visited parts : List String} {n : String}
    (h : n ∈ explicitOf visited parts) : n ∈ parts.map Trim ∧ n ∈ visited := by
  simpa [explicitOf, List.mem_filter] using h

theorem mem_explicitOf {visited parts : List String} {n : String}
    (h₁ : n ∈ parts.map Trim) (h₂ : n ∈ visited) : n ∈ explicitOf visited parts := by
  simp only [explicitOf, List.mem_filter, decide_eq_true_eq]
  exact ⟨h₁, h₂⟩

theorem explicitOf_length_le (visited parts : List String) :
    (explicitOf visited parts).length ≤ parts.length := by
  unfold explicitOf
  exact (List.length_filter_le _ _).trans (by simp)

theorem resolve_single (set : FlagSet V) (a : String) (h : (set.Lookup a).isSome = true) :
    resolve set [a] none = .ok (some a) := by
  cases hl : set.Lookup a with
  | none => simp [hl] at h
  | some v => simp [resolve, hl]

theorem resolve_two (set : FlagSet V) (a b : String) (rest : List String)
    (h : (set.Lookup a).isSome = true) :
    resolve set (a :: b :: rest) none = .error (conflictMessage b a) := by
  cases hl : set.Lookup a with
  | none => simp [hl] at h
  | some v => simp [resolve, hl]

theorem Declared.frame {keep : String → Prop} {visited : List String} {s t : FlagSet V}
    (hd : Declared visited s) (hf : Frame keep s t) : Declared visited t :=
  fun n hn => (hf.2.1 n).trans (hd n hn)

/-! ## The outer loop -/

theorem normalizeLoop_frame (ops : ValueOps V) (visited : List String) (gs : List Flag)
    (st : NormState V) :
    Frame (fun n => n ∈ visited ∨ ∀ g ∈ gs, (Split g.getName).length ≠ 1 → n ∉ g.names)
      st.set (normalizeLoop ops visited gs st).2.set := by
  induction gs generalizing st with
  | nil => exact Frame.refl _ _
  | cons g rest ih =>
    have hrest : ∀ st2 : NormState V,
        Frame (fun n => n ∈ visited ∨
            ∀ h ∈ g :: rest, (Split h.getName).length ≠ 1 → n ∉ h.names)
          st2.set (normalizeLoop ops visited rest st2).2.set := fun st2 =>
      (ih st2).weaken fun n hn => hn.imp id fun h k hk => h k (List.mem_cons_of_mem _ hk)
    by_cases h1 : (Split g.getName).length = 1
    · simp only [normalizeLoop, if_pos h1]
      exact hrest st
    · simp only [normalizeLoop, if_neg h1]
      cases hfs : findSetFlag visited st.set (Split g.getName) none with
      | error e => exact Frame.refl _ _
      | ok r =>
        cases r with
        | none => exact hrest st
        | some ff =>
          refine Frame.trans ?_ (hrest _)
          refine (copyToUnset_frame ops visited ff (Split g.getName) st).weaken fun n hn => ?_
          exact hn.imp id fun h => h g (List.mem_cons_self _ _) h1

theorem normalizeLoop_append (ops : ValueOps V) (visited : List String) (pre post : List Flag)
    (st : NormState V) (h : (normalizeLoop ops visited pre st).1 = none) :
    normalizeLoop ops visited (pre ++ post) st =
      normalizeLoop ops visited post (normalizeLoop ops visited pre st).2 := by
  induction pre generalizing st with
  | nil => rfl
  | cons g rest ih =>
    by_cases h1 : (Split g.getName).length = 1
    · simp only [normalizeLoop, if_pos h1, List.cons_append] at h ⊢
      exact ih st h
    · simp only [normalizeLoop, if_neg h1, List.cons_append] at h ⊢
      cases hfs : findSetFlag visited st.set (Split g.getName) none with
      | error e => rw [hfs] at h; simp at h
      | ok r =>
        cases r with
        | none => rw [hfs] at h; exact ih st h
        | some ff => rw [hfs] at h; exact ih _ h

theorem normalizeLoop_step_skip (ops : ValueOps V) (visited : List String) (g : Flag)
    (rest : List Flag) (st : NormState V) (hd : Declared visited st.set)
    (hg : (g.explicitNames visited).length ≤ 1) :
    ∃ st2 : NormState V, normalizeLoop ops visited (g :: rest) st =
        normalizeLoop ops visited rest st2 ∧
      Frame (fun n => n ∈ visited ∨ n ∉ g.names) st.set st2.set := by
  by_cases h1 : (Split g.getName).length = 1
  · exact ⟨st, by simp only [normalizeLoop, if_pos h1], Frame.refl _ _⟩
  · simp only [normalizeLoop, if_neg h1, findSetFlag_eq_resolve]
    unfold Flag.explicitNames at hg
    cases he : explicitOf visited (Split g.getName) with
    | nil => exact ⟨st, by simp [resolve], Frame.refl _ _⟩
    | cons a tl =>
      cases tl with
      | cons b tl2 => rw [he] at hg; simp at hg
      | nil =>
        have ha : a ∈ visited := (explicitOf_mem (he ▸ List.mem_cons_self a [])).2
        rw [resolve_single st.set a (hd a ha)]
        exact ⟨_, rfl, copyToUnset_frame ops visited a (Split g.getName) st⟩

theorem normalizeLoop_noconflict (ops : ValueOps V) (visited : List String) (gs : List Flag)
    (st : NormState V) (hd : Declared visited st.set)
    (hg : ∀ g ∈ gs, (g.explicitNames visited).length ≤ 1) :
    (normalizeLoop ops visited gs st).1 = none := by
  induction gs generalizing st with
  | nil => rfl
  | cons g rest ih =>
    obtain ⟨st2, heq, hfr⟩ :=
      normalizeLoop_step_skip ops visited g rest st hd (hg g (List.mem_cons_self _ _))
    rw [heq]
    exact ih st2 (hd.frame hfr) fun k hk => hg k (List.mem_cons_of_mem _ hk)

theorem normalizeLoop_conflict_head (ops : ValueOps V) (visited : List String) (f : Flag)
    (post : List Flag) (st : NormState V) (hd : Declared visited st.set) (a b : String)
    (tl : List String) (hf : f.explicitNames visited = a :: b :: tl) :
    normalizeLoop ops visited (f :: post) st = (some (conflictMessage b a), st) := by
  unfold Flag.explicitNames at hf
  have h1 : ¬ (Split f.getName).length = 1 := by
    have := explicitOf_length_le visited (Split f.getName)
    rw [hf] at this
    simp only [List.length_cons] at this
    omega
  have ha : a ∈ visited := (explicitOf_mem (hf ▸ List.mem_cons_self a _)).2
  simp only [normalizeLoop, if_neg h1, findSetFlag_eq_resolve, hf,
    resolve_two st.set a b tl (hd a ha)]

theorem normalizeLoop_conflict (ops : ValueOps V) (visited : List String) (gs : List Flag)
    (st : NormState V) (hd : Declared visited st.set)
    (h : ∃ f ∈ gs, 2 ≤ (f.explicitNames visited).length) :
    ∃ pre f post a b tl, gs = pre ++ f :: post ∧
      (∀ g ∈ pre, (g.explicitNames visited).length ≤ 1) ∧
      f.explicitNames visited = a :: b :: tl ∧
      (normalizeLoop ops visited gs st).1 = some (conflictMessage b a) := by
  induction gs generalizing st with
  | nil => obtain ⟨f, hf, _⟩ := h; simp at hf
  | cons g rest ih =>
    by_cases hg : (g.explicitNames visited).length ≤ 1
    · obtain ⟨st2, heq, hfr⟩ := normalizeLoop_step_skip ops visited g rest st hd hg
      have h2 : ∃ f ∈ rest, 2 ≤ (f.explicitNames visited).length := by
        obtain ⟨f, hf, hlen⟩ := h
        rcases List.mem_cons.1 hf with e | hm
        · subst e; omega
        · exact ⟨f, hm, hlen⟩
      obtain ⟨pre, f, post, a, b, tl, hsplit, hpre, hexp, herr⟩ := ih st2 (hd.frame hfr) h2
      refine ⟨g :: pre, f, post, a, b, tl, by simp [hsplit], ?_, hexp, ?_⟩
      · intro k hk
        rcases List.mem_cons.1 hk with e | hm
        · subst e; exact hg
        · exact hpre k hm
      · rw [heq]; exact herr
    · cases he : g.explicitNames visited with
      | nil => rw [he] at hg; simp at hg
      | cons a tl =>
        cases tl with
        | nil => rw [he] at hg; simp at hg
        | cons b tl2 =>
          refine ⟨[], g, rest, a, b, tl2, rfl, by simp, he, ?_⟩
          rw [normalizeLoop_conflict_head ops visited g rest st hd a b tl2 he]

theorem copyFlag_calls (ops : ValueOps V) (name ff : String) (st : NormState V) :
    ∃ more, (copyFlag ops name ff st).calls = st.calls ++ more ∧
      (more = [] → (copyFlag ops name ff st).set = st.set) := by
  unfold copyFlag
  cases st.set.Lookup ff with
  | none => exact ⟨[], by simp, fun _ => rfl⟩
  | some v =>
    cases hs : ops.stringSlice v with
    | some _ => simp only [hs]; exact ⟨[], by simp, by simp⟩
    | none => simp only [hs]; exact ⟨[(name, ops.valueString v)], rfl, fun h => by simp at h⟩

theorem copyToUnset_calls (ops : ValueOps V) (visited : List String) (ff : String)
    (parts : List String) (st : NormState V) :
    ∃ more, (copyToUnset ops visited ff parts st).calls = st.calls ++ more ∧
      (more = [] → (copyToUnset ops visited ff parts st).set = st.set) := by
  induction parts generalizing st with
  | nil => exact ⟨[], by simp [copyToUnset], fun _ => rfl⟩
  | cons part rest ih =>
    by_cases hv : Trim part ∈ visited
    · simp only [copyToUnset, if_pos hv]; exact ih st
    · simp only [copyToUnset, if_neg hv]
      obtain ⟨m1, hc1, hs1⟩ := copyFlag_calls ops (Trim part) ff st
      obtain ⟨m2, hc2, hs2⟩ := ih (copyFlag ops (Trim part) ff st)
      refine ⟨m1 ++ m2, by rw [hc2, hc1, List.append_assoc], fun h => ?_⟩
      obtain ⟨e1, e2⟩ := List.append_eq_nil.1 h
      rw [hs2 e2, hs1 e1]

theorem normalizeLoop_calls (ops : ValueOps V) (visited : List String) (gs : List Flag)
    (st : NormState V) :
    ∃ more, (normalizeLoop ops visited gs st).2.calls = st.calls ++ more ∧
      (more = [] → (normalizeLoop ops visited gs st).2.set = st.set) := by
  induction gs generalizing st with
  | nil => exact ⟨[], by simp [normalizeLoop], fun _ => rfl⟩
  | cons g rest ih =>
    by_cases h1 : (Split g.getName).length = 1
    · simp only [normalizeLoop, if_pos h1]; exact ih st
    · simp only [normalizeLoop, if_neg h1]
      cases hfs : findSetFlag visited st.set (Split g.getName) none with
      | error e => exact ⟨[], by simp, fun _ => rfl⟩
      | ok r =>
        cases r with
        | none => exact ih st
        | some ff =>
          obtain ⟨m1, hc1, hs1⟩ := copyToUnset_calls ops visited ff (Split g.getName) st
          obtain ⟨m2, hc2, hs2⟩ := ih (copyToUnset ops visited ff (Split g.getName) st)
          refine ⟨m1 ++ m2, ?_, fun h => ?_⟩
          · show (normalizeLoop ops visited rest _).2.calls = _
            rw [hc2, hc1, List.append_assoc]
          · obtain ⟨e1, e2⟩ := List.append_eq_nil.1 h
            show (normalizeLoop ops visited rest _).2.set = _
            rw [hs2 e2, hs1 e1]

theorem normalizeLoop_noop (ops : ValueOps V) (visited : List String) (gs : List Flag)
    (st : NormState V)
    (h : ∀ f ∈ gs, (Split f.getName).length = 1 ∨ f.explicitNames visited = []) :
    normalizeLoop ops visited gs st = (none, st) := by
  induction gs generalizing st with
  | nil => rfl
  | cons g rest ih =>
    have hrest := ih st fun k hk => h k (List.mem_cons_of_mem _ hk)
    by_cases h1 : (Split g.getName).length = 1
    · simp only [normalizeLoop, if_pos h1, hrest]
    · have he : explicitOf visited (Split g.getName) = [] :=
        (h g (List.mem_cons_self _ _)).resolve_left h1
      simp only [normalizeLoop, if_neg h1, findSetFlag_eq_resolve, he, resolve, hrest]

/-! ## Claims about normalisation -/

/-- C2 (conflict detection): on a well-formed store, if some declaration has two
or more of its names in the explicit-set, `normalizeFlags` returns an error; the
error is raised at the first such declaration of the list, and its text is
"Cannot use two forms of the same flag: " followed by the second and then the
first explicitly set name of that declaration, in name order. The values play
no part. -/
theorem normalizeFlags_conflict (ops : ValueOps V) (flags : List Flag) (set : FlagSet V)
    (hwf : set.WellFormed) (h : ∃ f ∈ flags, 2 ≤ (f.explicitNames set.Visit).length) :
    ∃ pre f post a b tl, flags = pre ++ f :: post ∧
      (∀ g ∈ pre, (g.explicitNames set.Visit).length ≤ 1) ∧
      f.explicitNames set.Visit = a :: b :: tl ∧
      (normalizeFlags ops flags set).1 =
        some ("Cannot use two forms of the same flag: " ++ b ++ " " ++ a) :=
  normalizeLoop_conflict ops set.Visit flags { set := set, calls := [] } hwf h

/-- Witness of C2: `a` and `b` both given, declared as "a, b". -/
theorem normalizeFlags_conflict_witness :
    ∃ pre f post a b tl, [Flag.mk "x", Flag.mk "a, b"] = pre ++ f :: post ∧
      (∀ g ∈ pre, (g.explicitNames (stringStore ["a", "b"]).Visit).length ≤ 1) ∧
      f.explicitNames (stringStore ["a", "b"]).Visit = a :: b :: tl ∧
      (normalizeFlags goOps [Flag.mk "x", Flag.mk "a, b"] (stringStore ["a", "b"])).1 =
        some ("Cannot use two forms of the same flag: " ++ b ++ " " ++ a) :=
  normalizeFlags_conflict goOps [Flag.mk "x", Flag.mk "a, b"] (stringStore ["a", "b"])
    (by unfold FlagSet.WellFormed; decide) ⟨Flag.mk "a, b", by decide, by decide⟩

/-- C4 (nothing to reconcile): when every declaration has exactly one name or has
none of its names in the explicit-set, `normalizeFlags` returns no error, issues
no overwrite and leaves the store as it was. -/
theorem normalizeFlags_noop (ops : ValueOps V) (flags : List Flag) (set : FlagSet V)
    (h : ∀ f ∈ flags, (Split f.getName).length = 1 ∨ f.explicitNames set.Visit = []) :
    normalizeFlags ops flags set = (none, { set := set, calls := [] }) :=
  normalizeLoop_noop ops set.Visit flags { set := set, calls := [] } h

/-- Witness of C4: one single-name declaration whose name was given, and one
alias group none of whose names was given. -/
theorem normalizeFlags_noop_witness :
    normalizeFlags goOps [Flag.mk "x", Flag.mk "a, b"] (stringStore ["x"]) =
      (none, { set := stringStore ["x"], calls := [] }) :=
  normalizeFlags_noop goOps [Flag.mk "x", Flag.mk "a, b"] (stringStore ["x"]) (by decide)

/-- C3, refuted as stated: with `a` given and declared as "a, b", the first call
succeeds and records `b` as explicitly set, so the second call fails. -/
theorem normalizeFlags_not_idempotent :
    (normalizeFlags goOps [Flag.mk "a, b"] (stringStore ["a"])).1 = none ∧
    (normalizeFlags goOps [Flag.mk "a, b"]
      (normalizeFlags goOps [Flag.mk "a, b"] (stringStore ["a"])).2.set).1 =
      some "Cannot use two forms of the same flag: b a" := by
  decide

/-- C6, refuted as stated: with `a` given and declared as "a, b", the call
succeeds and both names of the group are explicitly set afterwards. -/
theorem normalizeFlags_two_explicit_after :
    (normalizeFlags goOps [Flag.mk "a, b"] (stringStore ["a"])).1 = none ∧
    (Flag.mk "a, b").explicitNames
      (normalizeFlags goOps [Flag.mk "a, b"] (stringStore ["a"])).2.set.Visit = ["a", "b"] := by
  decide

/-- C6, amended: when `normalizeFlags` returns no error on a well-formed store,
every declaration has at most one of its names in the explicit-set the store had
when `normalizeFlags` was called. -/
theorem normalizeFlags_ok_explicit_le_one (ops : ValueOps V) (flags : List Flag)
    (set : FlagSet V) (hwf : set.WellFormed) (hok : (normalizeFlags ops flags set).1 = none) :
    ∀ f ∈ flags, (f.explicitNames set.Visit).length ≤ 1 := by
  intro f hf
  by_contra hlen
  obtain ⟨_, _, _, a, b, _, _, _, _, herr⟩ :=
    normalizeLoop_conflict ops set.Visit flags { set := set, calls := [] } hwf
      ⟨f, hf, by omega⟩
  have : (normalizeFlags ops flags set).1 = some (conflictMessage b a) := herr
  rw [hok] at this
  exact Option.noConfusion this

/-- Witness of C6 amended: "a, b" with `a` given. -/
theorem normalizeFlags_ok_explicit_le_one_witness :
    ((Flag.mk "a, b").explicitNames (stringStore ["a"]).Visit).length ≤ 1 :=
  normalizeFlags_ok_explicit_le_one goOps [Flag.mk "a, b"] (stringStore ["a"])
    (by unfold FlagSet.WellFormed; decide) (by decide) (Flag.mk "a, b") (by decide)

/-! ## One alias group -/

theorem copyFlag_stringSlice (ops : ValueOps V) (name ff : String) (st : NormState V) (v : V)
    (xs : List String) (hA : st.set.Lookup ff = some v) (hs : ops.stringSlice v = some xs) :
    copyFlag ops name ff st = st := by
  simp only [copyFlag, hA, hs]

theorem copyToUnset_stringSlice (ops : ValueOps V) (visited : List String) (ff : String)
    (parts : List String) (st : NormState V) (v : V) (xs : List String)
    (hA : st.set.Lookup ff = some v) (hs : ops.stringSlice v = some xs) :
    copyToUnset ops visited ff parts st = st := by
  induction parts with
  | nil => rfl
  | cons part rest ih =>
    by_cases hv : Trim part ∈ visited
    · simp only [copyToUnset, if_pos hv, ih]
    · simp only [copyToUnset, if_neg hv, copyFlag_stringSlice ops _ ff st v xs hA hs, ih]

theorem normalizeLoop_step (ops : ValueOps V) (visited : List String) (g : Flag)
    (st : NormState V) :
    (∃ e, ∀ rest, normalizeLoop ops visited (g :: rest) st = (some e, st)) ∨
    (∃ st2 : NormState V,
      (∀ rest, normalizeLoop ops visited (g :: rest) st = normalizeLoop ops visited rest st2) ∧
      Frame (fun n => n ∈ visited ∨ n ∉ g.names) st.set st2.set) := by
  by_cases h1 : (Split g.getName).length = 1
  · exact Or.inr ⟨st, fun rest => by simp only [normalizeLoop, if_pos h1], Frame.refl _ _⟩
  · cases hfs : findSetFlag visited st.set (Split g.getName) none with
    | error e => exact Or.inl ⟨e, fun rest => by simp only [normalizeLoop, if_neg h1, hfs]⟩
    | ok r =>
      cases r with
      | none =>
        exact Or.inr ⟨st, fun rest => by simp only [normalizeLoop, if_neg h1, hfs],
          Frame.refl _ _⟩
      | some ff =>
        exact Or.inr ⟨_, fun rest => by simp only [normalizeLoop, if_neg h1, hfs],
          copyToUnset_frame ops visited ff (Split g.getName) st⟩

theorem normalizeLoop_skip_stringSlice (ops : ValueOps V) (visited : List String)
    (pre post : List Flag) (f : Flag) (st : NormState V) (A : String) (v : V)
    (xs : List String) (hexp : f.explicitNames visited = [A]) (hA : st.set.Lookup A = some v)
    (hs : ops.stringSlice v = some xs) :
    normalizeLoop ops visited (pre ++ f :: post) st =
      normalizeLoop ops visited (pre ++ post) st := by
  have hAv : A ∈ visited := (explicitOf_mem (hexp ▸ List.mem_cons_self A [])).2
  induction pre generalizing st with
  | nil =>
    by_cases h1 : (Split f.getName).length = 1
    · simp only [List.nil_append, normalizeLoop, if_pos h1]
    · unfold Flag.explicitNames at hexp
      have hsome : (st.set.Lookup A).isSome = true := by rw [hA]; rfl
      simp only [List.nil_append, normalizeLoop, if_neg h1, findSetFlag_eq_resolve, hexp,
        resolve_single st.set A hsome,
        copyToUnset_stringSlice ops visited A (Split f.getName) st v xs hA hs]
  | cons g rest ih =>
    rcases normalizeLoop_step ops visited g st with ⟨e, he⟩ | ⟨st2, h2, hfr⟩
    · rw [List.cons_append, List.cons_append, he, he]
    · rw [List.cons_append, List.cons_append, h2, h2]
      exact ih st2 ((hfr.1 A (Or.inl hAv)).1.trans hA)

/-- C7, refuted as stated: for an integer-list group "n, num" with `n` given,
`normalizeFlags` returns no error and does issue an overwrite of the sibling
`num`; the integer-list cell rejects it, so the store is left as it was. -/
theorem normalizeFlags_intSlice_overwrite :
    (normalizeFlags goOps [Flag.mk "n, num"] intSliceStore).1 = none ∧
    (Flag.mk "n, num").explicitNames intSliceStore.Visit = ["n"] ∧
    (normalizeFlags goOps [Flag.mk "n, num"] intSliceStore).2.calls.map Prod.fst = ["num"] ∧
    (normalizeFlags goOps [Flag.mk "n, num"] intSliceStore).2.set.formal =
      intSliceStore.formal ∧
    (normalizeFlags goOps [Flag.mk "n, num"] intSliceStore).2.set.actual =
      intSliceStore.actual := by
  decide

theorem copyFlag_scalar (ops : ValueOps V) (K : V → Prop) (hK : ScalarKind ops K)
    (name A : String) (st : NormState V) (vA : V) (hA : st.set.Lookup A = some vA)
    (hKA : K vA) :
    (copyFlag ops name A st).set = (st.set.Set ops name (ops.valueString vA)).1 := by
  simp only [copyFlag, hA, hK.notList vA hKA]

theorem copyFlag_copied (ops : ValueOps V) (K : V → Prop) (hK : ScalarKind ops K)
    (name A : String) (st : NormState V) (vA : V) (hA : st.set.Lookup A = some vA)
    (hKA : K vA) (hne : name ≠ A) :
    (copyFlag ops name A st).set.Lookup A = some vA ∧
    (∀ w, st.set.Lookup name = some w → K w →
      Copied ops K (ops.valueString vA) name (copyFlag ops name A st).set) ∧
    (∀ m, Copied ops K (ops.valueString vA) m st.set →
      Copied ops K (ops.valueString vA) m (copyFlag ops name A st).set) ∧
    (∀ m, (∀ w, st.set.Lookup m = some w → K w) →
      ∀ w, (copyFlag ops name A st).set.Lookup m = some w → K w) := by
  have hfr := copyFlag_frame ops name A st
  have hb : ∀ w, st.set.Lookup name = some w → K w →
      Copied ops K (ops.valueString vA) name (copyFlag ops name A st).set := by
    intro w hw hKw
    rw [copyFlag_scalar ops K hK name A st vA hA hKA]
    obtain ⟨hl, hact⟩ := Set_self ops st.set name (ops.valueString vA) w hw
    obtain ⟨hsucc, hKn, htext⟩ := hK.accepts w vA hKw hKA
    exact ⟨_, hl, hKn, htext, hact hsucc⟩
  refine ⟨?_, hb, ?_, ?_⟩
  · exact (hfr.1 A (fun e => hne e.symm)).1.trans hA
  · intro m hm
    by_cases hmn : m = name
    · subst hmn
      obtain ⟨w, hw, hKw, _, _⟩ := hm
      exact hb w hw hKw
    · obtain ⟨w, hw, hKw, htext, hact⟩ := hm
      exact ⟨w, (hfr.1 m hmn).1.trans hw, hKw, htext, (hfr.1 m hmn).2.2 hact⟩
  · intro m hm w hw
    by_cases hmn : m = name
    · subst hmn
      cases hl : st.set.Lookup m with
      | none =>
        have := hfr.2.1 m
        rw [hw, hl] at this
        simp at this
      | some w0 =>
        obtain ⟨w2, hw2, hKw2, _, _⟩ := hb w0 hl (hm w0 hl)
        rw [hw2] at hw
        cases hw
        exact hKw2
    · exact hm w ((hfr.1 m hmn).1.symm.trans hw)

theorem copyToUnset_copied (ops : ValueOps V) (K : V → Prop) (hK : ScalarKind ops K)
    (visited all : List String) (A : String) (hAv : A ∈ visited) (vA : V) (hKA : K vA)
    (parts : List String) (st : NormState V) (hA : st.set.Lookup A = some vA)
    (hkind : ∀ n ∈ all, ∀ w, st.set.Lookup n = some w → K w)
    (hsub : ∀ p ∈ parts, Trim p ∈ all) :
    (copyToUnset ops visited A parts st).set.Lookup A = some vA ∧
    (∀ n ∈ all, ∀ w, (copyToUnset ops visited A parts st).set.Lookup n = some w → K w) ∧
    (∀ m, Copied ops K (ops.valueString vA) m st.set →
      Copied ops K (ops.valueString vA) m (copyToUnset ops visited A parts st).set) ∧
    (∀ B ∈ parts.map Trim, B ∉ visited → (st.set.Lookup B).isSome = true →
      Copied ops K (ops.valueString vA) B (copyToUnset ops visited A parts st).set) := by
  induction parts generalizing st with
  | nil => exact ⟨hA, hkind, fun _ h => h, fun B hB => by simp at hB⟩
  | cons part rest ih =>
    have hsub2 : ∀ p ∈ rest, Trim p ∈ all := fun p hp => hsub p (List.mem_cons_of_mem _ hp)
    by_cases hv : Trim part ∈ visited
    · simp only [copyToUnset, if_pos hv]
      obtain ⟨i1, i2, i3, i4⟩ := ih st hA hkind hsub2
      refine ⟨i1, i2, i3, fun B hB hBv hBd => ?_⟩
      rcases List.mem_cons.1 (by simpa using hB : B ∈ Trim part :: rest.map Trim) with e | hm
      · exact absurd (e ▸ hv) hBv
      · exact i4 B hm hBv hBd
    · simp only [copyToUnset, if_neg hv]
      have hne : Trim part ≠ A := fun e => hv (e ▸ hAv)
      obtain ⟨c1, c2, c3, c4⟩ := copyFlag_copied ops K hK (Trim part) A st vA hA hKA hne
      obtain ⟨i1, i2, i3, i4⟩ :=
        ih (copyFlag ops (Trim part) A st) c1 (fun n hn => c4 n (hkind n hn)) hsub2
      refine ⟨i1, i2, fun m hm => i3 m (c3 m hm), fun B hB hBv hBd => ?_⟩
      rcases List.mem_cons.1 (by simpa using hB : B ∈ Trim part :: rest.map Trim) with e | hm
      · subst e
        cases hl : st.set.Lookup (Trim part) with
        | none => rw [hl] at hBd; simp at hBd
        | some w =>
          exact i3 _ (c2 w hl (hkind _ (hsub part (List.mem_cons_self _ _)) w hl))
      · refine i4 B hm hBv ?_
        rw [(copyFlag_frame ops (Trim part) A st).2.1 B]
        exact hBd

theorem normalizeLoop_group (ops : ValueOps V) (K : V → Prop) (hK : ScalarKind ops K)
    (visited : List String) (f : Flag) (st : NormState V) (A : String) (vA : V)
    (hexp : f.explicitNames visited = [A]) (hA : st.set.Lookup A = some vA) (hKA : K vA)
    (hkind : ∀ n ∈ f.names, ∀ w, st.set.Lookup n = some w → K w) :
    ∃ st2 : NormState V,
      (∀ rest, normalizeLoop ops visited (f :: rest) st = normalizeLoop ops visited rest st2) ∧
      Frame (fun n => n ∈ visited ∨ n ∉ f.names) st.set st2.set ∧
      ∀ B ∈ f.names, B ≠ A → (st.set.Lookup B).isSome = true →
        Copied ops K (ops.valueString vA) B st2.set := by
  have hAmem : A ∈ f.names ∧ A ∈ visited :=
    explicitOf_mem (by rw [← Flag.explicitNames, hexp]; exact List.mem_cons_self A [])
  have hBv : ∀ B ∈ f.names, B ≠ A → B ∉ visited := by
    intro B hB hne hv
    have : B ∈ f.explicitNames visited := mem_explicitOf hB hv
    rw [hexp] at this
    exact hne (List.mem_singleton.1 this)
  by_cases h1 : (Split f.getName).length = 1
  · refine ⟨st, fun rest => by simp only [normalizeLoop, if_pos h1], Frame.refl _ _, ?_⟩
    intro B hB hne
    have hlen : f.names.length = 1 := by simp [Flag.names, h1]
    obtain ⟨x, hx⟩ := List.length_eq_one.1 hlen
    have hAx : A = x := by simpa [Flag.names, hx] using (hx ▸ hAmem.1 : A ∈ [x])
    have hBx : B = x := by simpa using (hx ▸ hB : B ∈ [x])
    exact absurd (hBx.trans hAx.symm) hne
  · have hsome : (st.set.Lookup A).isSome = true := by rw [hA]; rfl
    refine ⟨copyToUnset ops visited A (Split f.getName) st, fun rest => ?_,
      copyToUnset_frame ops visited A (Split f.getName) st, ?_⟩
    · unfold Flag.explicitNames at hexp
      simp only [normalizeLoop, if_neg h1, findSetFlag_eq_resolve, hexp,
        resolve_single st.set A hsome]
    · intro B hB hne hBd
      exact (copyToUnset_copied ops K hK visited f.names A hAmem.2 vA hKA (Split f.getName) st
        hA hkind (fun p hp => List.mem_map_of_mem Trim hp)).2.2.2 B hB (hBv B hB hne) hBd

/-- C1, refuted as stated: the group "a, b" has exactly one name given, `a`, and
shares no name with the other declaration, but the earlier declaration "x, y"
has both names given; `normalizeFlags` returns at that conflict and `b` keeps
its own value. -/
theorem normalizeFlags_alias_not_reached :
    (Flag.mk "a, b").explicitNames (stringStore ["x", "y", "a"]).Visit = ["a"] ∧
    (normalizeFlags goOps [Flag.mk "x, y", Flag.mk "a, b"] (stringStore ["x", "y", "a"])).1 =
      some "Cannot use two forms of the same flag: y x" ∧
    lookupString goOps "b"
      (normalizeFlags goOps [Flag.mk "x, y", Flag.mk "a, b"]
        (stringStore ["x", "y", "a"])).2.set = "vb" ∧
    lookupString goOps "a"
      (normalizeFlags goOps [Flag.mk "x, y", Flag.mk "a, b"]
        (stringStore ["x", "y", "a"])).2.set = "va" := by
  decide

/-- C1, amended: let `f` be a declaration of a scalar kind whose names occur in no
other declaration, with exactly one of its names, `A`, in the explicit-set of a
well-formed store, and let no declaration before `f` have two explicitly set
names. Then `normalizeFlags` returns no error up to and including `f`, and
afterwards every other name `B` of `f` that the store declares renders the
value of `A`, which is the value `A` had before. -/
theorem normalizeFlags_alias_propagation (ops : ValueOps V) (K : V → Prop)
    (hK : ScalarKind ops K) (pre post : List Flag) (f : Flag) (set : FlagSet V) (A : String)
    (hwf : set.WellFormed)
    (hpre : ∀ g ∈ pre, (g.explicitNames set.Visit).length ≤ 1)
    (hexp : f.explicitNames set.Visit = [A])
    (hdisj : ∀ g ∈ pre ++ post, ∀ n ∈ g.names, n ∉ f.names)
    (hkind : ∀ n ∈ f.names, ∀ w, set.Lookup n = some w → K w) :
    (normalizeFlags ops (pre ++ [f]) set).1 = none ∧
    ∀ B ∈ f.names, B ≠ A → (set.Lookup B).isSome = true →
      lookupString ops B (normalizeFlags ops (pre ++ f :: post) set).2.set =
        lookupString ops A (normalizeFlags ops (pre ++ f :: post) set).2.set ∧
      lookupString ops A (normalizeFlags ops (pre ++ f :: post) set).2.set =
        lookupString ops A set := by
  have hAmem : A ∈ f.names ∧ A ∈ set.Visit :=
    explicitOf_mem (by rw [← Flag.explicitNames, hexp]; exact List.mem_cons_self A [])
  have hd0 : Declared set.Visit set := hwf
  obtain ⟨vA, hvA⟩ := Option.isSome_iff_exists.1 (hd0 A hAmem.2)
  have hKA : K vA := hkind A hAmem.1 vA hvA
  have hok := normalizeLoop_noconflict ops set.Visit pre { set := set, calls := [] } hd0 hpre
  have hF1 := normalizeLoop_frame ops set.Visit pre { set := set, calls := [] }
  have hkeep1 : ∀ n ∈ f.names, n ∈ set.Visit ∨
      ∀ g ∈ pre, (Split g.getName).length ≠ 1 → n ∉ g.names := fun n hn =>
    Or.inr fun g hg _ hng => hdisj g (List.mem_append_left _ hg) n hng hn
  obtain ⟨st2, hstep, hF2, hcop⟩ := normalizeLoop_group ops K hK set.Visit f
    (normalizeLoop ops set.Visit pre { set := set, calls := [] }).2 A vA hexp
    ((hF1.1 A (hkeep1 A hAmem.1)).1.trans hvA) hKA
    (fun n hn w hw => hkind n hn w ((hF1.1 n (hkeep1 n hn)).1.symm.trans hw))
  refine ⟨?_, fun B hB hne hBd => ?_⟩
  · show (normalizeLoop ops set.Visit (pre ++ [f]) _).1 = none
    rw [normalizeLoop_append ops set.Visit pre [f] _ hok, hstep]
    rfl
  · have hrun : (normalizeFlags ops (pre ++ f :: post) set).2 =
        (normalizeLoop ops set.Visit post st2).2 := by
      show (normalizeLoop ops set.Visit (pre ++ f :: post) _).2 = _
      rw [normalizeLoop_append ops set.Visit pre (f :: post) _ hok, hstep]
    have hF3 := normalizeLoop_frame ops set.Visit post st2
    have hkeep3 : ∀ n ∈ f.names, n ∈ set.Visit ∨
        ∀ g ∈ post, (Split g.getName).length ≠ 1 → n ∉ g.names := fun n hn =>
      Or.inr fun g hg _ hng => hdisj g (List.mem_append_right _ hg) n hng hn
    have hBd1 : ((normalizeLoop ops set.Visit pre { set := set, calls := [] }).2.set.Lookup
        B).isSome = true := by rw [hF1.2.1 B]; exact hBd
    obtain ⟨w, hw, _, htext, _⟩ := hcop B hB hne hBd1
    have hAfinal : (normalizeLoop ops set.Visit post st2).2.set.Lookup A = some vA :=
      (hF3.1 A (Or.inl hAmem.2)).1.trans
        ((hF2.1 A (Or.inl hAmem.2)).1.trans ((hF1.1 A (Or.inl hAmem.2)).1.trans hvA))
    have hBfinal : (normalizeLoop ops set.Visit post st2).2.set.Lookup B = some w :=
      (hF3.1 B (hkeep3 B hB)).1.trans hw
    rw [hrun]
    simp only [lookupString, hAfinal, hBfinal, hvA, htext, and_self]

theorem scalarKind_isStr : ScalarKind goOps isStr := by
  refine ⟨fun w hw => ?_, fun w w2 hw _ => ?_⟩
  · cases w <;> first | rfl | exact hw.elim
  · cases w <;> first | exact ⟨rfl, trivial, rfl⟩ | exact hw.elim

theorem stringStore_isStr (explicit : List String) (n : String) (w : GoValue)
    (h : (stringStore explicit).Lookup n = some w) : isStr w := by
  simp only [FlagSet.Lookup, stringStore, lookupCell] at h
  repeat' split at h
  all_goals first
    | (cases h; trivial)
    | (exact Option.noConfusion h)

/-- Witness of C1 amended: "x, y" with `x` given comes first, then "a, b" with
`a` given; afterwards `b` renders the value of `a`. -/
theorem normalizeFlags_alias_propagation_witness :
    (normalizeFlags goOps ([Flag.mk "x, y"] ++ [Flag.mk "a, b"])
      (stringStore ["x", "a"])).1 = none ∧
    lookupString goOps "b" (normalizeFlags goOps ([Flag.mk "x, y"] ++ Flag.mk "a, b" :: [])
        (stringStore ["x", "a"])).2.set =
      lookupString goOps "a" (normalizeFlags goOps
        ([Flag.mk "x, y"] ++ Flag.mk "a, b" :: []) (stringStore ["x", "a"])).2.set ∧
    lookupString goOps "a" (normalizeFlags goOps
        ([Flag.mk "x, y"] ++ Flag.mk "a, b" :: []) (stringStore ["x", "a"])).2.set =
      lookupString goOps "a" (stringStore ["x", "a"]) :=
  have h := normalizeFlags_alias_propagation goOps isStr scalarKind_isStr [Flag.mk "x, y"] []
    (Flag.mk "a, b") (stringStore ["x", "a"]) "a" (by unfold FlagSet.WellFormed; decide)
    (by decide) (by decide) (by decide) (fun n _ w hw => stringStore_isStr _ n w hw)
  ⟨h.1, h.2 "b" (by decide) (by decide) (by decide)⟩

/-- C5, refuted as stated: "a, b" is an alias group of string options, both
declared, of which the user gave only `a`; the user also gave `x` and `y` of
the earlier group "x, y". `normalizeFlags` returns at that conflict, and a
context newly made over the store answers false to `IsSet` of `b`. -/
theorem normalizeFlags_alias_isSet_not_reached :
    (Flag.mk "a, b").names = ["a", "b"] ∧
    (Flag.mk "a, b").explicitNames (stringStore ["x", "y", "a"]).Visit = ["a"] ∧
    ((NewContext (App.mk []) (normalizeFlags goOps [Flag.mk "x, y", Flag.mk "a, b"]
      (stringStore ["x", "y", "a"])).2.set (stringStore [])).IsSet "b").1 = false ∧
    ((NewContext (App.mk []) (normalizeFlags goOps [Flag.mk "x, y", Flag.mk "a, b"]
      (stringStore ["x", "y", "a"])).2.set (stringStore [])).IsSet "a").1 = true := by
  decide

/-- C5, amended (aliases become explicitly set): let `f` be a declaration of a
scalar kind whose names occur in no earlier declaration, with exactly one of
its names, `A`, in the explicit-set of a well-formed store, and let no
declaration before `f` have two explicitly set names. After `normalizeFlags`,
whatever it returns, a context newly made over the store answers true to `IsSet`
of `A` and of every other name of `f` that the store declares. -/
theorem normalizeFlags_alias_isSet (ops : ValueOps V) (K : V → Prop) (hK : ScalarKind ops K)
    (pre post : List Flag) (f : Flag) (set globalSet : FlagSet V) (app : App) (A : String)
    (hwf : set.WellFormed)
    (hpre : ∀ g ∈ pre, (g.explicitNames set.Visit).length ≤ 1)
    (hexp : f.explicitNames set.Visit = [A])
    (hdisj : ∀ g ∈ pre, ∀ n ∈ g.names, n ∉ f.names)
    (hkind : ∀ n ∈ f.names, ∀ w, set.Lookup n = some w → K w) :
    ((NewContext app (normalizeFlags ops (pre ++ f :: post) set).2.set globalSet).IsSet A).1 =
      true ∧
    ∀ B ∈ f.names, (set.Lookup B).isSome = true →
      ((NewContext app (normalizeFlags ops (pre ++ f :: post) set).2.set globalSet).IsSet
        B).1 = true := by
  have hAmem : A ∈ f.names ∧ A ∈ set.Visit :=
    explicitOf_mem (by rw [← Flag.explicitNames, hexp]; exact List.mem_cons_self A [])
  have hd0 : Declared set.Visit set := hwf
  obtain ⟨vA, hvA⟩ := Option.isSome_iff_exists.1 (hd0 A hAmem.2)
  have hKA : K vA := hkind A hAmem.1 vA hvA
  have hok := normalizeLoop_noconflict ops set.Visit pre { set := set, calls := [] } hd0 hpre
  have hF1 := normalizeLoop_frame ops set.Visit pre { set := set, calls := [] }
  have hkeep1 : ∀ n ∈ f.names, n ∈ set.Visit ∨
      ∀ g ∈ pre, (Split g.getName).length ≠ 1 → n ∉ g.names := fun n hn =>
    Or.inr fun g hg _ hng => hdisj g hg n hng hn
  obtain ⟨st2, hstep, hF2, hcop⟩ := normalizeLoop_group ops K hK set.Visit f
    (normalizeLoop ops set.Visit pre { set := set, calls := [] }).2 A vA hexp
    ((hF1.1 A (hkeep1 A hAmem.1)).1.trans hvA) hKA
    (fun n hn w hw => hkind n hn w ((hF1.1 n (hkeep1 n hn)).1.symm.trans hw))
  have hrun : (normalizeFlags ops (pre ++ f :: post) set).2 =
      (normalizeLoop ops set.Visit post st2).2 := by
    show (normalizeLoop ops set.Visit (pre ++ f :: post) _).2 = _
    rw [normalizeLoop_append ops set.Visit pre (f :: post) _ hok, hstep]
  have hF3 := normalizeLoop_frame ops set.Visit post st2
  have hAfinal : A ∈ (normalizeLoop ops set.Visit post st2).2.set.actual :=
    hF3.2.2.1 A (hF2.2.2.1 A (hF1.2.2.1 A hAmem.2))
  simp only [NewContext, Context.IsSet, hrun, FlagSet.Visit, decide_eq_true_eq]
  refine ⟨hAfinal, fun B hB hBd => ?_⟩
  by_cases hBA : B = A
  · rw [hBA]; exact hAfinal
  · have hBd1 : ((normalizeLoop ops set.Visit pre { set := set, calls := [] }).2.set.Lookup
        B).isSome = true := by rw [hF1.2.1 B]; exact hBd
    obtain ⟨_, _, _, _, hBact⟩ := hcop B hB hBA hBd1
    exact hF3.2.2.1 B hBact

/-- Witness of C5 amended: "x, y" with `x` given comes first, then "a, b" with
`a` given; afterwards `IsSet` is true of `a` and of `b`. -/
theorem normalizeFlags_alias_isSet_witness :
    ((NewContext (App.mk []) (normalizeFlags goOps ([Flag.mk "x, y"] ++ Flag.mk "a, b" :: [])
      (stringStore ["x", "a"])).2.set (stringStore [])).IsSet "a").1 = true ∧
    ((NewContext (App.mk []) (normalizeFlags goOps ([Flag.mk "x, y"] ++ Flag.mk "a, b" :: [])
      (stringStore ["x", "a"])).2.set (stringStore [])).IsSet "b").1 = true :=
  have h := normalizeFlags_alias_isSet goOps isStr scalarKind_isStr [Flag.mk "x, y"] []
    (Flag.mk "a, b") (stringStore ["x", "a"]) (stringStore []) (App.mk []) "a"
    (by unfold FlagSet.WellFormed; decide) (by decide) (by decide) (by decide)
    (fun n _ w hw => stringStore_isStr _ n w hw)
  ⟨h.1, h.2 "b" (by decide) (by decide)⟩

/-! ## Claims about the typed accessors -/

/-- C8 (true-biased boolean): `lookupBoolT` and `lookupBool` differ exactly when
the name is declared and its text is not a boolean, where `lookupBoolT` is true
and `lookupBool` is false; otherwise they agree; both are false on an
undeclared name; `lookupBoolT` is true on a declared name holding "notabool";
and `Context.BoolT` is `lookupBoolT` on the local store. -/
theorem lookupBoolT_asymmetry (ops : ValueOps V) (set : FlagSet V) (name : String) :
    (∀ v, set.Lookup name = some v → ParseBool (ops.valueString v) = none →
      lookupBoolT ops name set = true ∧ lookupBool ops name set = false) ∧
    ((∀ v, set.Lookup name = some v → ParseBool (ops.valueString v) ≠ none) →
      lookupBoolT ops name set = lookupBool ops name set) ∧
    (set.Lookup name = none →
      lookupBoolT ops name set = false ∧ lookupBool ops name set = false) ∧
    (∀ v, set.Lookup name = some v → ops.valueString v = "notabool" →
      lookupBoolT ops name set = true) ∧
    (∀ c : Context V, c.BoolT ops name = lookupBoolT ops name c.flagSet) := by
  refine ⟨fun v hv hp => ?_, fun h => ?_, fun hn => ?_, fun v hv ht => ?_, fun _ => rfl⟩
  · simp only [lookupBoolT, lookupBool, hv, hp, and_self]
  · cases hv : set.Lookup name with
    | none => simp only [lookupBoolT, lookupBool, hv]
    | some v =>
      cases hp : ParseBool (ops.valueString v) with
      | none => exact absurd hp (h v hv)
      | some b => simp only [lookupBoolT, lookupBool, hv, hp]
  · simp only [lookupBoolT, lookupBool, hn, and_self]
  · have hp : ParseBool "notabool" = none := by decide
    simp only [lookupBoolT, hv, ht, hp]

/-- Witness of C8: the option `x` of `mixedStore` holds "notabool". -/
theorem lookupBoolT_asymmetry_witness :
    (lookupBoolT goOps "x" mixedStore = true ∧ lookupBool goOps "x" mixedStore = false) ∧
    lookupBoolT goOps "t" mixedStore = lookupBool goOps "t" mixedStore ∧
    (lookupBoolT goOps "zz" mixedStore = false ∧ lookupBool goOps "zz" mixedStore = false) :=
  ⟨(lookupBoolT_asymmetry goOps mixedStore "x").1 (.str "notabool") (by decide) (by decide),
   (lookupBoolT_asymmetry goOps mixedStore "t").2.1 (fun v hv => by
     have e : v = .bool true := by
       have h2 : mixedStore.Lookup "t" = some (.bool true) := by decide
       rw [h2] at hv
       exact (Option.some.inj hv).symm
     subst e
     decide),
   (lookupBoolT_asymmetry goOps mixedStore "zz").2.2.1 (by decide)⟩

/-- C9 (silent degradation): the scalar accessors are total functions; on an
undeclared name each returns the zero value of its type, and on a declared name
whose text its parser rejects each of the four parsing accessors returns zero. -/
theorem scalar_lookups_degrade {F : Type} [Zero F] (parseDuration : String → Option Int)
    (parseFloat : String → Option F) (ops : ValueOps V) (set : FlagSet V) (name : String) :
    (set.Lookup name = none →
      lookupInt ops name set = 0 ∧ lookupDuration parseDuration ops name set = 0 ∧
      lookupFloat64 parseFloat ops name set = 0 ∧ lookupBool ops name set = false ∧
      lookupString ops name set = "") ∧
    (∀ v, set.Lookup name = some v →
      (Atoi (ops.valueString v) = none → lookupInt ops name set = 0) ∧
      (parseDuration (ops.valueString v) = none →
        lookupDuration parseDuration ops name set = 0) ∧
      (parseFloat (ops.valueString v) = none → lookupFloat64 parseFloat ops name set = 0) ∧
      (ParseBool (ops.valueString v) = none → lookupBool ops name set = false)) := by
  refine ⟨fun hn => ?_, fun v hv => ⟨fun h => ?_, fun h => ?_, fun h => ?_, fun h => ?_⟩⟩
  · simp only [lookupInt, lookupDuration, lookupFloat64, lookupBool, lookupString, hn,
      and_self]
  · simp only [lookupInt, hv, h]
  · simp only [lookupDuration, hv, h]
  · simp only [lookupFloat64, hv, h]
  · simp only [lookupBool, hv, h]

/-- Witness of C9: the undeclared name `zz`, and the declared `x` holding
"notabool", with parsers that reject every text. -/
theorem scalar_lookups_degrade_witness :
    (lookupInt goOps "zz" mixedStore = 0 ∧
      lookupDuration (fun _ => none) goOps "zz" mixedStore = 0 ∧
      lookupFloat64 (fun _ => (none : Option Int)) goOps "zz" mixedStore = 0 ∧
      lookupBool goOps "zz" mixedStore = false ∧ lookupString goOps "zz" mixedStore = "") ∧
    lookupInt goOps "x" mixedStore = 0 ∧ lookupBool goOps "x" mixedStore = false :=
  ⟨(scalar_lookups_degrade (fun _ => none) (fun _ => (none : Option Int)) goOps mixedStore
      "zz").1 (by decide),
   ((scalar_lookups_degrade (fun _ => none) (fun _ => (none : Option Int)) goOps mixedStore
      "x").2 (.str "notabool") (by decide)).1 (by decide),
   ((scalar_lookups_degrade (fun _ => none) (fun _ => (none : Option Int)) goOps mixedStore
      "x").2 (.str "notabool") (by decide)).2.2.2 (by decide)⟩

/-- C10, the code at the failing input: on the declared string option `x` the
unchecked type assertions of `lookupStringSlice` and `lookupIntSlice` panic
(`none`), whereas on the undeclared name `zz` both return the nil slice. -/
theorem lookupStringSlice_panics_on_scalar :
    lookupStringSlice goOps "x" mixedStore = none ∧
    lookupIntSlice goOps "x" mixedStore = none ∧
    lookupStringSlice goOps "zz" mixedStore = some [] ∧
    lookupIntSlice goOps "zz" mixedStore = some [] := by
  decide

/-! ## Claims about the positional arguments -/

theorem Args.index_of_lt (a : Args) (n : Int) (h0 : 0 ≤ n) (h1 : n < (a.length : Int)) :
    ∃ x, a.index n = some x ∧ a[n.toNat]? = some x := by
  have hlt : n.toNat < a.length := by omega
  refine ⟨a[n.toNat], ?_, List.getElem?_eq_getElem hlt⟩
  simp only [Args.index, if_pos h0, List.get?_eq_getElem?, List.getElem?_eq_getElem hlt]

theorem Args.Get_of_neg (a : Args) (n : Int) (h : n < 0) : a.Get n = none := by
  have h1 : (a.length : Int) > n := by omega
  have h2 : ¬ (0 ≤ n) := by omega
  simp only [Args.Get, if_pos h1, Args.index, if_neg h2]

theorem Args.Get_of_nonneg (a : Args) (n : Int) (h : 0 ≤ n) :
    a.Get n = some (a.getD n.toNat "") := by
  by_cases h1 : (a.length : Int) > n
  · obtain ⟨x, hx, hg⟩ := Args.index_of_lt a n h h1
    simp only [Args.Get, if_pos h1, hx, List.getD_eq_getElem?_getD, hg, Option.getD_some]
  · have hge : a.length ≤ n.toNat := by omega
    simp only [Args.Get, if_neg h1, List.getD_eq_getElem?_getD,
      List.getElem?_eq_none hge, Option.getD_none]

/-- C11, the code at the failing input: `Get(-1)` on a three-element slice passes
the test `len(a) > n` and indexes the slice at -1, which panics (`none`); for
indexes that are not negative the code does as claimed (`Get(1)` is the element,
`Get(5)` is the empty string). -/
theorem Args_Get_negative_index_panics :
    Args.Get ["a", "b", "c"] (-1) = none ∧
    Args.Get ["a", "b", "c"] 1 = some "b" ∧
    Args.Get ["a", "b", "c"] 5 = some "" := by
  decide

/-- C12, the code at the failing input: `Last()` on the empty slice calls
`Get(-1)`, which indexes the slice at -1 and panics (`none`); on a slice that is
not empty it returns the last element. -/
theorem Args_Last_empty_panics :
    Args.Last [] = none ∧ Args.Last ["a", "b", "c"] = some "c" := by
  decide

/-- C13, the code at the failing input: `Swap(-1, 0)` on a three-element slice
passes the test against the length and indexes the slice at -1, which panics
(`none`) where the error was claimed; `Swap(0, 10)` returns the error and leaves
the slice as it was. -/
theorem Args_Swap_negative_index_panics :
    Args.Swap ["a", "b", "c"] (-1) 0 = none ∧
    Args.Swap ["a", "b", "c"] 0 (-1) = none ∧
    Args.Swap ["a", "b", "c"] 0 10 = some (some "index out of range", ["a", "b", "c"]) := by
  decide

/-- C14 (swap of two valid positions): for indexes `src` and `dst` inside the
slice, `Swap` returns no error and a slice of the same length that holds the
old `a[dst]` at `src`, the old `a[src]` at `dst`, and the old element
everywhere else. -/
theorem Args_Swap_valid (a : Args) (src dst : Int) (hs0 : 0 ≤ src)
    (hs1 : src < (a.length : Int)) (hd0 : 0 ≤ dst) (hd1 : dst < (a.length : Int)) :
    ∃ b : Args, a.Swap src dst = some (none, b) ∧ b.length = a.length ∧
      b[src.toNat]? = a[dst.toNat]? ∧ b[dst.toNat]? = a[src.toNat]? ∧
      ∀ i : Nat, i ≠ src.toNat → i ≠ dst.toNat → b[i]? = a[i]? := by
  obtain ⟨x, hx, hxg⟩ := Args.index_of_lt a src hs0 hs1
  obtain ⟨y, hy, hyg⟩ := Args.index_of_lt a dst hd0 hd1
  have hlts : src.toNat < a.length := by omega
  have hltd : dst.toNat < a.length := by omega
  have hcond : ¬ (src ≥ (a.length : Int) ∨ dst ≥ (a.length : Int)) := by omega
  refine ⟨(a.set src.toNat y).set dst.toNat x, ?_, ?_, ?_, ?_, ?_⟩
  · simp only [Args.Swap, if_neg hcond, hx, hy]
  · simp only [List.length_set]
  · by_cases e : dst.toNat = src.toNat
    · rw [e, List.getElem?_set, if_pos rfl, if_pos (by simpa using hlts)]
      rw [e] at hyg
      rw [hxg] at hyg
      rw [hxg, hyg]
    · rw [List.getElem?_set_ne e, List.getElem?_set, if_pos rfl, if_pos hlts, hyg]
  · rw [List.getElem?_set, if_pos rfl, if_pos (by simpa using hltd), hxg]
  · intro i hi1 hi2
    rw [List.getElem?_set_ne (Ne.symm hi2), List.getElem?_set_ne (Ne.symm hi1)]

/-- Witness of C14: positions 0 and 2 of a three-element slice. -/
theorem Args_Swap_valid_witness :
    ∃ b : Args, Args.Swap ["a", "b", "c"] 0 2 = some (none, b) ∧
      b.length = ["a", "b", "c"].length ∧
      b[(0 : Int).toNat]? = ["a", "b", "c"][(2 : Int).toNat]? ∧
      b[(2 : Int).toNat]? = ["a", "b", "c"][(0 : Int).toNat]? ∧
      ∀ i : Nat, i ≠ (0 : Int).toNat → i ≠ (2 : Int).toNat → b[i]? = ["a", "b", "c"][i]? :=
  Args_Swap_valid ["a", "b", "c"] 0 2 (by decide) (by decide) (by decide) (by decide)

/-- C15 (all but the first): `Tail` is the slice from position 1 when there are
two elements or more and is empty otherwise; its length is the length less one,
or zero; and the first element followed by the tail is the slice again whenever
the slice is not empty. -/
theorem Args_Tail_all_but_first (a : Args) :
    (2 ≤ a.length → a.Tail = a.drop 1) ∧
    (a.length ≤ 1 → a.Tail = []) ∧
    a.Tail.length = a.length - 1 ∧
    (a ≠ [] → ∃ x, a.First = some x ∧ x :: a.Tail = a) := by
  cases a with
  | nil => exact ⟨fun h => by simp at h, fun _ => rfl, rfl, fun h => absurd rfl h⟩
  | cons x rest =>
    cases rest with
    | nil =>
      refine ⟨fun h => by simp at h, fun _ => rfl, rfl, fun _ => ⟨x, ?_, rfl⟩⟩
      exact Args.Get_of_nonneg [x] 0 (le_refl 0)
    | cons y tl =>
      have ht : Args.Tail (x :: y :: tl) = y :: tl := by simp [Args.Tail]
      refine ⟨fun _ => ht, fun h => by simp at h, by rw [ht]; rfl, fun _ => ⟨x, ?_, by rw [ht]⟩⟩
      exact Args.Get_of_nonneg (x :: y :: tl) 0 (le_refl 0)

/-- Witness of C15: a one-element and a three-element slice. -/
theorem Args_Tail_all_but_first_witness :
    Args.Tail ["a"] = [] ∧ Args.Tail ["a", "b", "c"] = List.drop 1 ["a", "b", "c"] ∧
    ∃ x, Args.First ["a", "b", "c"] = some x ∧ x :: Args.Tail ["a", "b", "c"] = ["a", "b", "c"] :=
  ⟨(Args_Tail_all_but_first ["a"]).2.1 (by decide),
   (Args_Tail_all_but_first ["a", "b", "c"]).1 (by decide),
   (Args_Tail_all_but_first ["a", "b", "c"]).2.2.2 (by decide)⟩

/-! ## Claims about the context -/

/-- C16 (the explicit-set map is made once): while the map is nil, `IsSet`
answers membership in the explicit-set of the local store and keeps that set as
the map; once the map exists, `IsSet` answers membership in it and changes
nothing, whatever the store has become since (also when the map is empty);
`GlobalIsSet` does the same with the global store and its own map; and neither
call touches the map of the other scope. -/
theorem IsSet_cache_made_once (c : Context V) (name : String) :
    (c.setFlags = none →
      (c.IsSet name).1 = decide (name ∈ c.flagSet.Visit) ∧
      (c.IsSet name).2.setFlags = some c.flagSet.Visit) ∧
    (∀ m, c.setFlags = some m → ∀ later : FlagSet V,
      Context.IsSet { c with flagSet := later } name =
        (decide (name ∈ m), { c with flagSet := later })) ∧
    (c.setFlags = some [] → ∀ later : FlagSet V,
      (Context.IsSet { c with flagSet := later } name).1 = false) ∧
    (c.globalSetFlags = none →
      (c.GlobalIsSet name).1 = decide (name ∈ c.globalSet.Visit) ∧
      (c.GlobalIsSet name).2.globalSetFlags = some c.globalSet.Visit) ∧
    (∀ m, c.globalSetFlags = some m → ∀ later : FlagSet V,
      Context.GlobalIsSet { c with globalSet := later } name =
        (decide (name ∈ m), { c with globalSet := later })) ∧
    (c.IsSet name).2.globalSetFlags = c.globalSetFlags ∧
    (c.GlobalIsSet name).2.setFlags = c.setFlags := by
  refine ⟨fun h => ?_, fun m h later => ?_, fun h later => ?_, fun h => ?_,
    fun m h later => ?_, ?_, ?_⟩
  · simp only [Context.IsSet, h, and_self]
  · simp only [Context.IsSet, h]
  · simp only [Context.IsSet, h, List.not_mem_nil, decide_False]
  · simp only [Context.GlobalIsSet, h, and_self]
  · simp only [Context.GlobalIsSet, h]
  · unfold Context.IsSet
    cases c.setFlags <;> rfl
  · unfold Context.GlobalIsSet
    cases c.globalSetFlags <;> rfl

/-- Witness of C16: the first `IsSet` on a new context over a store where `a`
was given, then a second one after the store has recorded `b` too. -/
theorem IsSet_cache_made_once_witness :
    ((NewContext (App.mk []) (stringStore ["a"]) (stringStore [])).IsSet "a").1 =
        decide ("a" ∈ (stringStore ["a"]).Visit) ∧
    Context.IsSet { ((NewContext (App.mk []) (stringStore ["a"]) (stringStore [])).IsSet
        "a").2 with flagSet := stringStore ["a", "b"] } "b" =
      (decide ("b" ∈ ["a"]), { ((NewContext (App.mk []) (stringStore ["a"])
        (stringStore [])).IsSet "a").2 with flagSet := stringStore ["a", "b"] }) :=
  ⟨((IsSet_cache_made_once (NewContext (App.mk []) (stringStore ["a"])
      (stringStore [])) "a").1 rfl).1,
   (IsSet_cache_made_once ((NewContext (App.mk []) (stringStore ["a"])
      (stringStore [])).IsSet "a").2 "b").2.1 ["a"] rfl (stringStore ["a", "b"])⟩

theorem flagNamesLoop_eq (skip : String → Bool) (flags : List Flag) (names : List String) :
    flagNamesLoop skip flags names =
      names ++ (flags.map firstName).filter (fun n => !(skip n)) := by
  induction flags generalizing names with
  | nil => simp [flagNamesLoop]
  | cons f rest ih =>
    by_cases h : skip (firstName f) = true
    · rw [flagNamesLoop, if_pos h, ih]
      simp [List.filter_cons, h]
    · rw [flagNamesLoop, if_neg h, ih]
      simp [List.filter_cons, h]

theorem splitAux_ne_nil (cur cs : List Char) : splitAux cur cs ≠ [] := by
  induction cs generalizing cur with
  | nil => simp [splitAux]
  | cons c rest ih =>
    by_cases h : c = ','
    · simp [splitAux, h]
    · simp only [splitAux, if_neg h]
      exact ih _

/-- C17 (declared names): `FlagNames` is, in declaration order, the first comma
separated name of each declaration of the command other than "help", so a
local "version" is kept; `GlobalFlagNames` is the same over the declarations of
the app, other than "help" and "version". Hence "help" is never in `FlagNames`,
and neither "help" nor "version" is in `GlobalFlagNames`. The first name is
the head of the parts, of which there is always one. -/
theorem FlagNames_enumeration (c : Context V) :
    c.FlagNames = (c.Command.Flags.map firstName).filter (fun n => decide (n ≠ "help")) ∧
    c.GlobalFlagNames =
      (c.App.Flags.map firstName).filter (fun n => decide (n ≠ "help" ∧ n ≠ "version")) ∧
    "help" ∉ c.FlagNames ∧ "help" ∉ c.GlobalFlagNames ∧ "version" ∉ c.GlobalFlagNames ∧
    (∀ f ∈ c.Command.Flags, firstName f = "version" → "version" ∈ c.FlagNames) ∧
    (∀ f : Flag, ∃ tl, Split f.getName = firstName f :: tl) := by
  have h1 : c.FlagNames =
      (c.Command.Flags.map firstName).filter (fun n => decide (n ≠ "help")) := by
    unfold Context.FlagNames
    rw [flagNamesLoop_eq, List.nil_append]
    congr 1
    funext n
    by_cases h : n = "help" <;> simp [h]
  have h2 : c.GlobalFlagNames =
      (c.App.Flags.map firstName).filter
        (fun n => decide (n ≠ "help" ∧ n ≠ "version")) := by
    unfold Context.GlobalFlagNames
    rw [flagNamesLoop_eq, List.nil_append]
    congr 1
    funext n
    by_cases h : n = "help" <;> by_cases h3 : n = "version" <;> simp [h, h3]
  refine ⟨h1, h2, ?_, ?_, ?_, ?_, ?_⟩
  · rw [h1]; simp [List.mem_filter]
  · rw [h2]; simp [List.mem_filter]
  · rw [h2]; simp [List.mem_filter]
  · intro f hf hv
    rw [h1, List.mem_filter]
    exact ⟨List.mem_map.2 ⟨f, hf, hv⟩, by decide⟩
  · intro f
    unfold firstName Split
    cases hs : splitAux [] f.getName.data with
    | nil => exact absurd hs (splitAux_ne_nil _ _)
    | cons p tl => exact ⟨tl.map String.mk, by simp⟩

/-- Witness of C17: a command declaring "help, h", "version, v" and "name, n". -/
theorem FlagNames_enumeration_witness :
    "version" ∈ Context.FlagNames ({ (NewContext (App.mk []) (stringStore [])
      (stringStore [])) with
        Command := Command.mk [Flag.mk "help, h", Flag.mk "version, v", Flag.mk "name, n"] } :
      Context GoValue) :=
  (FlagNames_enumeration ({ (NewContext (App.mk []) (stringStore []) (stringStore [])) with
      Command := Command.mk [Flag.mk "help, h", Flag.mk "version, v", Flag.mk "name, n"] } :
      Context GoValue)).2.2.2.2.2.1 (Flag.mk "version, v") (by decide) (by decide)

/-! ## Further claims about normalisation -/

theorem Split_length_pos (s : String) : 1 ≤ (Split s).length := by
  unfold Split
  rw [List.length_map]
  exact List.length_pos.2 (splitAux_ne_nil _ _)

theorem resolve_ok_of_le_one (set : FlagSet V) (l : List String) (h : l.length ≤ 1) :
    ∃ r, resolve set l none = .ok r := by
  cases l with
  | nil => exact ⟨none, rfl⟩
  | cons a tl =>
    cases tl with
    | nil => exact ⟨_, rfl⟩
    | cons b tl2 => simp at h

theorem normalizeLoop_error_explicit (ops : ValueOps V) (visited : List String)
    (gs : List Flag) (st : NormState V) (herr : (normalizeLoop ops visited gs st).1 ≠ none) :
    ∃ f ∈ gs, 2 ≤ (f.explicitNames visited).length := by
  induction gs generalizing st with
  | nil => exact absurd rfl herr
  | cons g rest ih =>
    have lift : (∃ f ∈ rest, 2 ≤ (f.explicitNames visited).length) →
        ∃ f ∈ g :: rest, 2 ≤ (f.explicitNames visited).length := fun ⟨f, hf, hl⟩ =>
      ⟨f, List.mem_cons_of_mem _ hf, hl⟩
    by_cases h1 : (Split g.getName).length = 1
    · simp only [normalizeLoop, if_pos h1] at herr
      exact lift (ih st herr)
    · simp only [normalizeLoop, if_neg h1] at herr
      cases hfs : findSetFlag visited st.set (Split g.getName) none with
      | error e =>
        refine ⟨g, List.mem_cons_self _ _, ?_⟩
        by_contra hlen
        obtain ⟨r, hr⟩ := resolve_ok_of_le_one st.set (explicitOf visited (Split g.getName))
          (by unfold Flag.explicitNames at hlen; omega)
        rw [findSetFlag_eq_resolve, hr] at hfs
        exact Except.noConfusion hfs
      | ok r =>
        rw [hfs] at herr
        cases r with
        | none => exact lift (ih st herr)
        | some ff => exact lift (ih _ herr)

/-- In a store where every name owns its value cell: whether `normalizeFlags`
succeeds or fails, a name that was in the explicit-set when it was called, and
a name that belongs to no declaration with two or more names, holds the same
value cell afterwards. -/
theorem normalizeFlags_keeps_user_values (ops : ValueOps V) (flags : List Flag)
    (set : FlagSet V) (n : String)
    (h : n ∈ set.actual ∨ ∀ g ∈ flags, 2 ≤ (Split g.getName).length → n ∉ g.names) :
    (normalizeFlags ops flags set).2.set.Lookup n = set.Lookup n ∧
    lookupString ops n (normalizeFlags ops flags set).2.set = lookupString ops n set := by
  have hfr := normalizeLoop_frame ops set.Visit flags { set := set, calls := [] }
  have hl : (normalizeFlags ops flags set).2.set.Lookup n = set.Lookup n := by
    refine (hfr.1 n ?_).1
    rcases h with h | h
    · exact Or.inl h
    · refine Or.inr fun g hg hne => h g hg ?_
      have := Split_length_pos g.getName
      omega
  exact ⟨hl, by simp only [lookupString, hl]⟩

/-- C19 (a conflict is not atomic): there are a declaration list and a store on
which `normalizeFlags` returns the conflict error and leaves a store other than
the one it was given: with "a, b" before "x, y" and `a`, `x`, `y` given, the
value of `a` has been copied to `b` when the conflict of `x` and `y` is met. -/
theorem normalizeFlags_conflict_not_atomic :
    ∃ (flags : List Flag) (set : FlagSet GoValue),
      (normalizeFlags goOps flags set).1 =
        some "Cannot use two forms of the same flag: y x" ∧
      (normalizeFlags goOps flags set).2.set ≠ set ∧
      set.Lookup "b" = some (.str "vb") ∧
      (normalizeFlags goOps flags set).2.set.Lookup "b" = some (.str "va") ∧
      (normalizeFlags goOps flags set).2.calls = [("b", "va")] := by
  refine ⟨[Flag.mk "a, b", Flag.mk "x, y"], stringStore ["a", "x", "y"], by decide, ?_,
    by decide, by decide, by decide⟩
  intro h
  have h2 : (normalizeFlags goOps [Flag.mk "a, b", Flag.mk "x, y"]
      (stringStore ["a", "x", "y"])).2.set.Lookup "b" =
      (stringStore ["a", "x", "y"]).Lookup "b" := by rw [h]
  revert h2
  decide

/-- C20 (no spurious conflict): when the names of each declaration are pairwise
distinct after trimming, `normalizeFlags` returns an error only if some
declaration with two or more names has two different names in the explicit-set
the store had when `normalizeFlags` was called. -/
theorem normalizeFlags_no_spurious_conflict (ops : ValueOps V) (flags : List Flag)
    (set : FlagSet V) (hnodup : ∀ f ∈ flags, f.names.Nodup)
    (herr : (normalizeFlags ops flags set).1 ≠ none) :
    ∃ f ∈ flags, 2 ≤ (Split f.getName).length ∧
      ∃ A B, A ≠ B ∧ A ∈ f.names ∧ B ∈ f.names ∧ A ∈ set.actual ∧ B ∈ set.actual := by
  obtain ⟨f, hf, hlen⟩ :=
    normalizeLoop_error_explicit ops set.Visit flags { set := set, calls := [] } herr
  have hle := explicitOf_length_le set.Visit (Split f.getName)
  refine ⟨f, hf, by unfold Flag.explicitNames at hlen; omega, ?_⟩
  have hnd : (f.explicitNames set.Visit).Nodup := (hnodup f hf).filter _
  cases he : f.explicitNames set.Visit with
  | nil => rw [he] at hlen; simp at hlen
  | cons a tl =>
    cases tl with
    | nil => rw [he] at hlen; simp at hlen
    | cons b tl2 =>
      rw [he] at hnd
      have hab : a ≠ b := fun e => by
        rw [e] at hnd
        exact (List.nodup_cons.1 hnd).1 (List.mem_cons_self _ _)
      have ha : a ∈ f.explicitNames set.Visit := by rw [he]; simp
      have hb : b ∈ f.explicitNames set.Visit := by rw [he]; simp
      exact ⟨a, b, hab, (explicitOf_mem ha).1, (explicitOf_mem hb).1,
        (explicitOf_mem ha).2, (explicitOf_mem hb).2⟩

/-- Witness of C20: "a, b" with both names given. -/
theorem normalizeFlags_no_spurious_conflict_witness :
    ∃ f ∈ [Flag.mk "x", Flag.mk "a, b"], 2 ≤ (Split f.getName).length ∧
      ∃ A B, A ≠ B ∧ A ∈ f.names ∧ B ∈ f.names ∧
        A ∈ (stringStore ["a", "b"]).actual ∧ B ∈ (stringStore ["a", "b"]).actual :=
  normalizeFlags_no_spurious_conflict goOps [Flag.mk "x", Flag.mk "a, b"]
    (stringStore ["a", "b"]) (by decide) (by decide)

/-! ## Rejected overwrites -/

theorem storeCell_same (l : List (String × V)) (name : String) (v : V)
    (h : lookupCell l name = some v) : storeCell l name v = l := by
  induction l with
  | nil => rfl
  | cons kv rest ih =>
    obtain ⟨k, u⟩ := kv
    by_cases hk : k = name
    · simp only [lookupCell, if_pos hk, Option.some.injEq] at h
      simp only [storeCell, if_pos hk, h]
    · simp only [lookupCell, if_neg hk] at h
      simp only [storeCell, if_neg hk, ih h]

theorem Set_rejected (ops : ValueOps V) (set : FlagSet V) (name value : String)
    (h : ∀ w, set.Lookup name = some w → ops.valueSet w value = (w, false)) :
    (set.Set ops name value).1 = set := by
  unfold FlagSet.Set
  cases hl : set.Lookup name with
  | none => rfl
  | some w =>
    simp only [h w hl, Bool.false_eq_true, if_false]
    rw [storeCell_same set.formal name w hl]

theorem copyFlag_rejected (ops : ValueOps V) (name A : String) (st : NormState V) (vA : V)
    (hA : st.set.Lookup A = some vA)
    (h : ∀ w, st.set.Lookup name = some w → ops.valueSet w (ops.valueString vA) = (w, false)) :
    (copyFlag ops name A st).set = st.set := by
  cases hs : ops.stringSlice vA with
  | some _ => simp only [copyFlag, hA, hs]
  | none =>
    simp only [copyFlag, hA, hs]
    exact Set_rejected ops st.set name _ h

theorem copyToUnset_rejected (ops : ValueOps V) (visited : List String) (A : String)
    (parts : List String) (st : NormState V) (vA : V) (hA : st.set.Lookup A = some vA)
    (h : ∀ p ∈ parts, ∀ w, st.set.Lookup (Trim p) = some w →
      ops.valueSet w (ops.valueString vA) = (w, false)) :
    (copyToUnset ops visited A parts st).set = st.set := by
  induction parts generalizing st with
  | nil => rfl
  | cons part rest ih =>
    have hrest : ∀ p ∈ rest, ∀ w, st.set.Lookup (Trim p) = some w →
        ops.valueSet w (ops.valueString vA) = (w, false) := fun p hp =>
      h p (List.mem_cons_of_mem _ hp)
    by_cases hv : Trim part ∈ visited
    · simp only [copyToUnset, if_pos hv]
      exact ih st hA hrest
    · simp only [copyToUnset, if_neg hv]
      have h1 := copyFlag_rejected ops (Trim part) A st vA hA (h part (List.mem_cons_self _ _))
      rw [ih (copyFlag ops (Trim part) A st) (by rw [h1]; exact hA)
        (by rw [h1]; exact hrest), h1]

theorem copyFlag_set_congr (ops : ValueOps V) (name ff : String) (st st2 : NormState V)
    (h : st.set = st2.set) : (copyFlag ops name ff st).set = (copyFlag ops name ff st2).set := by
  cases hl : st2.set.Lookup ff with
  | none => simp only [copyFlag, h, hl]
  | some v =>
    cases hs : ops.stringSlice v with
    | some _ => simp only [copyFlag, h, hl, hs]
    | none => simp only [copyFlag, h, hl, hs]

theorem copyToUnset_set_congr (ops : ValueOps V) (visited : List String) (ff : String)
    (parts : List String) (st st2 : NormState V) (h : st.set = st2.set) :
    (copyToUnset ops visited ff parts st).set = (copyToUnset ops visited ff parts st2).set := by
  induction parts generalizing st st2 with
  | nil => exact h
  | cons part rest ih =>
    by_cases hv : Trim part ∈ visited
    · simp only [copyToUnset, if_pos hv]
      exact ih st st2 h
    · simp only [copyToUnset, if_neg hv]
      exact ih _ _ (copyFlag_set_congr ops (Trim part) ff st st2 h)

theorem normalizeLoop_set_congr (ops : ValueOps V) (visited : List String) (gs : List Flag)
    (st st2 : NormState V) (h : st.set = st2.set) :
    (normalizeLoop ops visited gs st).1 = (normalizeLoop ops visited gs st2).1 ∧
    (normalizeLoop ops visited gs st).2.set = (normalizeLoop ops visited gs st2).2.set := by
  induction gs generalizing st st2 with
  | nil => exact ⟨rfl, h⟩
  | cons g rest ih =>
    by_cases h1 : (Split g.getName).length = 1
    · simp only [normalizeLoop, if_pos h1]
      exact ih st st2 h
    · simp only [normalizeLoop, if_neg h1]
      rw [h]
      cases findSetFlag visited st2.set (Split g.getName) none with
      | error e => exact ⟨rfl, h⟩
      | ok r =>
        cases r with
        | none => exact ih st st2 h
        | some ff =>
          exact ih _ _ (copyToUnset_set_congr ops visited ff (Split g.getName) st st2 h)

theorem normalizeLoop_skip_rejected (ops : ValueOps V) (visited : List String)
    (pre post : List Flag) (f : Flag) (st : NormState V) (A : String) (vA : V)
    (hexp : f.explicitNames visited = [A]) (hA : st.set.Lookup A = some vA)
    (hrej : ∀ n ∈ f.names, ∀ w, st.set.Lookup n = some w →
      ops.valueSet w (ops.valueString vA) = (w, false))
    (hdisj : ∀ g ∈ pre, ∀ n ∈ g.names, n ∉ f.names) :
    (normalizeLoop ops visited (pre ++ f :: post) st).1 =
      (normalizeLoop ops visited (pre ++ post) st).1 ∧
    (normalizeLoop ops visited (pre ++ f :: post) st).2.set =
      (normalizeLoop ops visited (pre ++ post) st).2.set := by
  have hAv : A ∈ visited := (explicitOf_mem (hexp ▸ List.mem_cons_self A [])).2
  induction pre generalizing st with
  | nil =>
    by_cases h1 : (Split f.getName).length = 1
    · simp only [List.nil_append, normalizeLoop, if_pos h1, and_self]
    · unfold Flag.explicitNames at hexp
      have hsome : (st.set.Lookup A).isSome = true := by rw [hA]; rfl
      simp only [List.nil_append, normalizeLoop, if_neg h1, findSetFlag_eq_resolve, hexp,
        resolve_single st.set A hsome]
      exact normalizeLoop_set_congr ops visited post _ st
        (copyToUnset_rejected ops visited A (Split f.getName) st vA hA
          (fun p hp => hrej (Trim p) (List.mem_map_of_mem Trim hp)))
  | cons g rest ih =>
    rcases normalizeLoop_step ops visited g st with ⟨e, he⟩ | ⟨st2, h2, hfr⟩
    · rw [List.cons_append, List.cons_append, he, he]
      exact ⟨rfl, rfl⟩
    · rw [List.cons_append, List.cons_append, h2, h2]
      have hkeep : ∀ n ∈ f.names, n ∈ visited ∨ n ∉ g.names := fun n hn =>
        Or.inr fun hng => hdisj g (List.mem_cons_self _ _) n hng hn
      refine ih st2 ((hfr.1 A (Or.inl hAv)).1.trans hA) (fun n hn w hw => ?_)
        (fun k hk => hdisj k (List.mem_cons_of_mem _ hk))
      exact hrej n hn w ((hfr.1 n (hkeep n hn)).1.symm.trans hw)

/-- C7, amended (list-valued options): let `f` be a declaration whose one
explicitly set name `A` holds a list. If the list is a string list,
`normalizeFlags` issues no overwrite for `f`. If it is an integer list, the
declared names of `f` hold integer lists and occur in no earlier declaration,
the overwrites issued for `f` are rejected by the cells. Either way the error
and the store that `normalizeFlags` leaves are those of the declaration list
without `f`, and `f` alone leaves the store as it was: the values and the
explicit-set status of the sibling names are as before. -/
theorem normalizeFlags_list_exempt (ops : ValueOps V) (pre post : List Flag) (f : Flag)
    (set : FlagSet V) (A : String) (v : V)
    (hexp : f.explicitNames set.Visit = [A]) (hA : set.Lookup A = some v)
    (hlist : (∃ xs, ops.stringSlice v = some xs) ∨
      (IntSliceRejects ops ∧
        (∀ n ∈ f.names, ∀ w, set.Lookup n = some w → (ops.intSlice w).isSome = true) ∧
        (∀ g ∈ pre, ∀ n ∈ g.names, n ∉ f.names))) :
    (normalizeFlags ops (pre ++ f :: post) set).1 = (normalizeFlags ops (pre ++ post) set).1 ∧
    (normalizeFlags ops (pre ++ f :: post) set).2.set =
      (normalizeFlags ops (pre ++ post) set).2.set ∧
    (normalizeFlags ops [f] set).1 = none ∧
    (normalizeFlags ops [f] set).2.set = set ∧
    ((∃ xs, ops.stringSlice v = some xs) →
      normalizeFlags ops (pre ++ f :: post) set = normalizeFlags ops (pre ++ post) set ∧
      (normalizeFlags ops [f] set).2.calls = []) := by
  have hstr : (∃ xs, ops.stringSlice v = some xs) →
      normalizeFlags ops (pre ++ f :: post) set = normalizeFlags ops (pre ++ post) set ∧
      normalizeFlags ops [f] set = (none, { set := set, calls := [] }) := fun ⟨xs, hs⟩ =>
    ⟨normalizeLoop_skip_stringSlice ops set.Visit pre post f _ A v xs hexp hA hs,
     normalizeLoop_skip_stringSlice ops set.Visit [] [] f _ A v xs hexp hA hs⟩
  have hAmem : A ∈ f.names :=
    (explicitOf_mem (by rw [← Flag.explicitNames, hexp]; exact List.mem_cons_self A [])).1
  rcases hlist with hs | ⟨hrejects, hkind, hdisj⟩
  · obtain ⟨e1, e2⟩ := hstr hs
    refine ⟨by rw [e1], by rw [e1], by rw [e2], by rw [e2], fun _ => ⟨e1, by rw [e2]⟩⟩
  · have hrej : ∀ n ∈ f.names, ∀ w, set.Lookup n = some w →
        ops.valueSet w (ops.valueString v) = (w, false) := fun n hn w hw =>
      hrejects w v (hkind n hn w hw) (hkind A hAmem v hA)
    obtain ⟨a1, a2⟩ := normalizeLoop_skip_rejected ops set.Visit pre post f
      { set := set, calls := [] } A v hexp hA hrej hdisj
    obtain ⟨b1, b2⟩ := normalizeLoop_skip_rejected ops set.Visit [] [] f
      { set := set, calls := [] } A v hexp hA hrej (fun g hg => absurd hg (List.not_mem_nil g))
    exact ⟨a1, a2, b1, b2, fun hs =>
      ⟨(hstr hs).1, by rw [(hstr hs).2]⟩⟩

theorem digits_foldl_none (cs : List Char) :
    cs.foldl (fun (acc : Option Nat) c =>
      match acc with
      | none => none
      | some n => if c.isDigit then some (10 * n + (c.toNat - 48)) else none) none = none := by
  induction cs with
  | nil => rfl
  | cons c rest ih => simpa [List.foldl] using ih

theorem digitsValue_bracket (cs : List Char) : digitsValue ('[' :: cs) = none := by
  have h : Char.isDigit '[' = false := by decide
  simp only [digitsValue, List.foldl, h]
  exact digits_foldl_none cs

theorem Atoi_bracket (s : String) (cs : List Char) (h : s.data = '[' :: cs) :
    Atoi s = none := by
  unfold Atoi
  rw [h]
  have hm : (match '[' :: cs with
      | '-' :: cs => (true, cs)
      | '+' :: cs => (false, cs)
      | cs => (false, cs)) = (false, '[' :: cs) := rfl
  rw [hm]
  simp only [digitsValue_bracket]

theorem goOps_intSliceRejects : IntSliceRejects goOps := by
  intro w w2 hw hw2
  cases w <;> simp [goOps] at hw
  cases w2 <;> simp [goOps] at hw2
  rename_i xs ys
  have hat : Atoi (sprintSlice (ys.map toString)) = none :=
    Atoi_bracket _ ((" ".intercalate (ys.map toString)).data ++ [']']) (by
      simp [sprintSlice, String.data_append])
  simp only [goOps, goString, goSet, hat]

/-- Witness of C7 amended: the string-list group "s, str" with `s` given, and
the integer-list group "n, num" with `n` given, each after the declaration
"a, b". -/
theorem normalizeFlags_list_exempt_witness :
    ((normalizeFlags goOps ([Flag.mk "a, b"] ++ Flag.mk "s, str" :: []) stringSliceStore).2.set =
        (normalizeFlags goOps ([Flag.mk "a, b"] ++ []) stringSliceStore).2.set ∧
      (normalizeFlags goOps [Flag.mk "s, str"] stringSliceStore).2.set = stringSliceStore) ∧
    ((normalizeFlags goOps ([Flag.mk "a, b"] ++ Flag.mk "n, num" :: []) intSliceStore).2.set =
        (normalizeFlags goOps ([Flag.mk "a, b"] ++ []) intSliceStore).2.set ∧
      (normalizeFlags goOps [Flag.mk "n, num"] intSliceStore).2.set = intSliceStore) :=
  have h1 := normalizeFlags_list_exempt goOps [Flag.mk "a, b"] [] (Flag.mk "s, str")
    stringSliceStore "s" (.stringSlice ["u"]) (by decide) (by decide)
    (Or.inl ⟨["u"], by decide⟩)
  have h2 := normalizeFlags_list_exempt goOps [Flag.mk "a, b"] [] (Flag.mk "n, num")
    intSliceStore "n" (.intSlice [1]) (by decide) (by decide)
    (Or.inr ⟨goOps_intSliceRejects, fun n _ w hw => by
      simp only [FlagSet.Lookup, intSliceStore, lookupCell] at hw
      repeat' split at hw
      all_goals first
        | (cases hw; rfl)
        | (exact Option.noConfusion hw), by decide⟩)
  ⟨⟨h1.2.1, h1.2.2.2.1⟩, ⟨h2.2.1, h2.2.2.2.1⟩⟩

/-! ## Names recorded by normalisation -/

theorem Set_actual (ops : ValueOps V) (set : FlagSet V) (name value : String) :
    ∃ ext, (set.Set ops name value).1.actual = set.actual ++ ext ∧
      ∀ n ∈ ext, n = name ∧ n ∉ set.actual ∧ (set.Lookup n).isSome = true := by
  unfold FlagSet.Set
  cases hl : set.Lookup name with
  | none => exact ⟨[], by simp, fun n hn => absurd hn (List.not_mem_nil n)⟩
  | some v =>
    by_cases hr : (ops.valueSet v value).2 = true
    · simp only [hr, if_true]
      by_cases hm : name ∈ set.actual
      · exact ⟨[], by simp [hm], fun n hn => absurd hn (List.not_mem_nil n)⟩
      · refine ⟨[name], by simp [hm], fun n hn => ?_⟩
        have e := List.mem_singleton.1 hn
        subst e
        exact ⟨rfl, hm, by rw [hl]; rfl⟩
    · simp only [hr]
      exact ⟨[], by simp, fun n hn => absurd hn (List.not_mem_nil n)⟩

theorem copyFlag_actual (ops : ValueOps V) (name ff : String) (st : NormState V) :
    ∃ ext, (copyFlag ops name ff st).set.actual = st.set.actual ++ ext ∧
      ∀ n ∈ ext, n = name ∧ n ∉ st.set.actual ∧ (st.set.Lookup n).isSome = true := by
  cases hl : st.set.Lookup ff with
  | none =>
    simp only [copyFlag, hl]
    exact ⟨[], by simp, fun n hn => absurd hn (List.not_mem_nil n)⟩
  | some v =>
    cases hs : ops.stringSlice v with
    | some _ =>
      simp only [copyFlag, hl, hs]
      exact ⟨[], by simp, fun n hn => absurd hn (List.not_mem_nil n)⟩
    | none =>
      simp only [copyFlag, hl, hs]
      exact Set_actual ops st.set name _

theorem copyToUnset_actual (ops : ValueOps V) (visited : List String) (ff : String)
    (parts : List String) (st : NormState V) :
    ∃ ext, (copyToUnset ops visited ff parts st).set.actual = st.set.actual ++ ext ∧
      ∀ n ∈ ext, n ∉ st.set.actual ∧ n ∉ visited ∧ n ∈ parts.map Trim ∧
        (st.set.Lookup n).isSome = true := by
  induction parts generalizing st with
  | nil => exact ⟨[], by simp [copyToUnset], fun n hn => absurd hn (List.not_mem_nil n)⟩
  | cons part rest ih =>
    by_cases hv : Trim part ∈ visited
    · simp only [copyToUnset, if_pos hv]
      obtain ⟨ext, he, hn⟩ := ih st
      exact ⟨ext, he, fun n hm => ⟨(hn n hm).1, (hn n hm).2.1,
        by simp [List.mem_map.1 (hn n hm).2.2.1], (hn n hm).2.2.2⟩⟩
    · simp only [copyToUnset, if_neg hv]
      obtain ⟨e1, h1, n1⟩ := copyFlag_actual ops (Trim part) ff st
      obtain ⟨e2, h2, n2⟩ := ih (copyFlag ops (Trim part) ff st)
      refine ⟨e1 ++ e2, by rw [h2, h1, List.append_assoc], fun n hm => ?_⟩
      rcases List.mem_append.1 hm with hm1 | hm2
      · obtain ⟨a, b, c⟩ := n1 n hm1
        exact ⟨b, a ▸ hv, by simp [a], c⟩
      · obtain ⟨a, b, c, d⟩ := n2 n hm2
        refine ⟨fun hin => a (by rw [h1]; exact List.mem_append_left _ hin), b,
          by simp [List.mem_map.1 c], ?_⟩
        rw [← (copyFlag_frame ops (Trim part) ff st).2.1 n]
        exact d

theorem resolve_some_mem (set : FlagSet V) (l : List String) (ff : Option String) (a : String)
    (h : resolve set l ff = .ok (some a)) : ff = some a ∨ a ∈ l := by
  induction l generalizing ff with
  | nil =>
    simp only [resolve, Except.ok.injEq] at h
    exact Or.inl h
  | cons b tl ih =>
    cases ff with
    | some c => simp [resolve] at h
    | none =>
      simp only [resolve] at h
      rcases ih _ h with h2 | h2
      · cases hl : set.Lookup b with
        | none => rw [hl] at h2; simp at h2
        | some v =>
          rw [hl] at h2
          simp only [Option.some.injEq] at h2
          exact Or.inr (h2 ▸ List.mem_cons_self _ _)
      · exact Or.inr (List.mem_cons_of_mem _ h2)

theorem normalizeLoop_actual (ops : ValueOps V) (visited : List String) (gs : List Flag)
    (st : NormState V) :
    ∃ ext, (normalizeLoop ops visited gs st).2.set.actual = st.set.actual ++ ext ∧
      ∀ n ∈ ext, n ∉ st.set.actual ∧ n ∉ visited ∧ (st.set.Lookup n).isSome = true ∧
        ∃ g ∈ gs, n ∈ g.names ∧ ∃ A, A ∈ g.explicitNames visited := by
  induction gs generalizing st with
  | nil => exact ⟨[], by simp [normalizeLoop], fun n hn => absurd hn (List.not_mem_nil n)⟩
  | cons g rest ih =>
    have lift : ∀ st0 : NormState V, ∃ ext,
        (normalizeLoop ops visited rest st0).2.set.actual = st0.set.actual ++ ext ∧
        ∀ n ∈ ext, n ∉ st0.set.actual ∧ n ∉ visited ∧ (st0.set.Lookup n).isSome = true ∧
          ∃ k ∈ g :: rest, n ∈ k.names ∧ ∃ A, A ∈ k.explicitNames visited := fun st0 => by
      obtain ⟨ext, he, hn⟩ := ih st0
      refine ⟨ext, he, fun n hm => ?_⟩
      obtain ⟨a, b, c, k, hk, d⟩ := hn n hm
      exact ⟨a, b, c, k, List.mem_cons_of_mem _ hk, d⟩
    by_cases h1 : (Split g.getName).length = 1
    · simp only [normalizeLoop, if_pos h1]
      exact lift st
    · simp only [normalizeLoop, if_neg h1]
      cases hfs : findSetFlag visited st.set (Split g.getName) none with
      | error e => exact ⟨[], by simp, fun n hn => absurd hn (List.not_mem_nil n)⟩
      | ok r =>
        cases r with
        | none => exact lift st
        | some ff =>
          have hff : ff ∈ g.explicitNames visited := by
            rw [findSetFlag_eq_resolve] at hfs
            rcases resolve_some_mem st.set _ none ff hfs with h | h
            · exact Option.noConfusion h
            · exact h
          obtain ⟨e1, h1e, n1⟩ := copyToUnset_actual ops visited ff (Split g.getName) st
          obtain ⟨e2, h2e, n2⟩ := lift (copyToUnset ops visited ff (Split g.getName) st)
          refine ⟨e1 ++ e2, ?_, fun n hm => ?_⟩
          · show (normalizeLoop ops visited rest _).2.set.actual = _
            rw [h2e, h1e, List.append_assoc]
          · rcases List.mem_append.1 hm with hm1 | hm2
            · obtain ⟨a, b, c, d⟩ := n1 n hm1
              exact ⟨a, b, d, g, List.mem_cons_self _ _, c, ff, hff⟩
            · obtain ⟨a, b, c, d⟩ := n2 n hm2
              refine ⟨fun hin => a (by rw [h1e]; exact List.mem_append_left _ hin), b, ?_, d⟩
              rw [← (copyToUnset_frame ops visited ff (Split g.getName) st).2.1 n]
              exact c

theorem two_mem_length {l : List String} {a b : String} (ha : a ∈ l) (hb : b ∈ l)
    (hab : a ≠ b) : 2 ≤ l.length := by
  cases l with
  | nil => exact absurd ha (List.not_mem_nil a)
  | cons x tl =>
    cases tl with
    | nil =>
      have e1 := List.mem_singleton.1 ha
      have e2 := List.mem_singleton.1 hb
      exact absurd (e1.trans e2.symm) hab
    | cons y tl2 => simp

theorem Set_unchanged (ops : ValueOps V) (set : FlagSet V) (name value : String)
    (hrej : ∀ w, set.Lookup name = some w → ∀ s, (ops.valueSet w s).2 = false →
      (ops.valueSet w s).1 = w)
    (hn : name ∉ set.actual) (hact : (set.Set ops name value).1.actual = set.actual) :
    (set.Set ops name value).1 = set := by
  unfold FlagSet.Set at hact ⊢
  cases hl : set.Lookup name with
  | none => rfl
  | some v =>
    rw [hl] at hact
    by_cases hr : (ops.valueSet v value).2 = true
    · simp only [hr, if_true, if_neg hn] at hact
      have := congrArg List.length hact
      simp at this
    · have hf : (ops.valueSet v value).2 = false := by simpa using hr
      simp only [hf, Bool.false_eq_true, if_false]
      rw [hrej v hl value hf, storeCell_same set.formal name v hl]

theorem copyFlag_unchanged (ops : ValueOps V) (name ff : String) (st : NormState V)
    (hrej : ∀ w, st.set.Lookup name = some w → ∀ s, (ops.valueSet w s).2 = false →
      (ops.valueSet w s).1 = w)
    (hn : name ∉ st.set.actual)
    (hact : (copyFlag ops name ff st).set.actual = st.set.actual) :
    (copyFlag ops name ff st).set = st.set := by
  cases hl : st.set.Lookup ff with
  | none => simp only [copyFlag, hl]
  | some v =>
    cases hs : ops.stringSlice v with
    | some _ => simp only [copyFlag, hl, hs]
    | none =>
      simp only [copyFlag, hl, hs] at hact ⊢
      exact Set_unchanged ops st.set name _ hrej hn hact

theorem append_eq_self_split {l e1 e2 : List String} (m : List String) (h1 : m = l ++ e1)
    (h2 : m ++ e2 = l) : m = l ∧ m ++ e2 = m := by
  have hlen := congrArg List.length h2
  rw [h1] at hlen
  simp only [List.length_append] at hlen
  have he1 : e1 = [] := List.length_eq_zero.1 (by omega)
  have he2 : e2 = [] := List.length_eq_zero.1 (by omega)
  subst he1 he2
  simp only [List.append_nil] at h1 ⊢
  exact ⟨h1, trivial⟩

theorem copyToUnset_unchanged (ops : ValueOps V) (visited : List String) (ff : String)
    (parts : List String) (st : NormState V)
    (hrej : ∀ m ∈ parts.map Trim, m ∉ visited → ∀ w, st.set.Lookup m = some w →
      ∀ s, (ops.valueSet w s).2 = false → (ops.valueSet w s).1 = w)
    (hsub : ∀ n ∈ st.set.actual, n ∈ visited)
    (hact : (copyToUnset ops visited ff parts st).set.actual = st.set.actual) :
    (copyToUnset ops visited ff parts st).set = st.set := by
  induction parts generalizing st with
  | nil => rfl
  | cons part rest ih =>
    have hrest : ∀ m ∈ rest.map Trim, m ∉ visited → ∀ w, st.set.Lookup m = some w →
        ∀ s, (ops.valueSet w s).2 = false → (ops.valueSet w s).1 = w := fun m hm =>
      hrej m (by simp [List.mem_map.1 hm])
    by_cases hv : Trim part ∈ visited
    · simp only [copyToUnset, if_pos hv] at hact ⊢
      exact ih st hrest hsub hact
    · simp only [copyToUnset, if_neg hv] at hact ⊢
      obtain ⟨e1, h1, _⟩ := copyFlag_actual ops (Trim part) ff st
      obtain ⟨e2, h2, _⟩ := copyToUnset_actual ops visited ff rest (copyFlag ops (Trim part) ff st)
      obtain ⟨hmid, hfin⟩ := append_eq_self_split _ h1 (h2 ▸ hact)
      have hset := copyFlag_unchanged ops (Trim part) ff st
        (hrej (Trim part) (by simp) hv) (fun hin => hv (hsub _ hin)) hmid
      rw [ih (copyFlag ops (Trim part) ff st) (by rw [hset]; exact hrest)
        (by rw [hset]; exact hsub) (by rw [h2]; exact hfin), hset]

theorem normalizeLoop_unchanged (ops : ValueOps V) (visited : List String) (gs : List Flag)
    (st : NormState V)
    (hrej : ∀ g ∈ gs, ∀ m ∈ g.names, m ∉ visited → ∀ w, st.set.Lookup m = some w →
      ∀ s, (ops.valueSet w s).2 = false → (ops.valueSet w s).1 = w)
    (hsub : ∀ n ∈ st.set.actual, n ∈ visited)
    (hact : (normalizeLoop ops visited gs st).2.set.actual = st.set.actual) :
    (normalizeLoop ops visited gs st).2.set = st.set := by
  induction gs generalizing st with
  | nil => rfl
  | cons g rest ih =>
    have hrest : ∀ k ∈ rest, ∀ m ∈ k.names, m ∉ visited → ∀ w, st.set.Lookup m = some w →
        ∀ s, (ops.valueSet w s).2 = false → (ops.valueSet w s).1 = w := fun k hk =>
      hrej k (List.mem_cons_of_mem _ hk)
    by_cases h1 : (Split g.getName).length = 1
    · simp only [normalizeLoop, if_pos h1] at hact ⊢
      exact ih st hrest hsub hact
    · simp only [normalizeLoop, if_neg h1] at hact ⊢
      cases hfs : findSetFlag visited st.set (Split g.getName) none with
      | error e => rfl
      | ok r =>
        rw [hfs] at hact
        cases r with
        | none => exact ih st hrest hsub hact
        | some ff =>
          obtain ⟨e1, h1e, _⟩ := copyToUnset_actual ops visited ff (Split g.getName) st
          obtain ⟨e2, h2e, _⟩ := normalizeLoop_actual ops visited rest
            (copyToUnset ops visited ff (Split g.getName) st)
          have hact2 : (normalizeLoop ops visited rest
              (copyToUnset ops visited ff (Split g.getName) st)).2.set.actual =
              st.set.actual := hact
          obtain ⟨hmid, hfin⟩ := append_eq_self_split _ h1e (h2e ▸ hact2)
          have hset := copyToUnset_unchanged ops visited ff (Split g.getName) st
            (hrej g (List.mem_cons_self _ _)) hsub hmid
          show (normalizeLoop ops visited rest _).2.set = st.set
          rw [ih (copyToUnset ops visited ff (Split g.getName) st) (by rw [hset]; exact hrest)
            (by rw [hset]; exact hsub) (by rw [h2e]; exact hfin), hset]

/-- C3, amended (a second call): let `normalizeFlags` succeed on a well-formed
store. If it recorded an alias as explicitly set, a second call on the
resulting store fails with a conflict. If it recorded none (no overwrite was
issued, or each was rejected) and the value of a name that was not explicitly
set stays as it was when it rejects a text, the store is unchanged and a second
call also succeeds and leaves the store, values and explicit-set, unchanged. -/
theorem normalizeFlags_second_call (ops : ValueOps V) (flags : List Flag) (set : FlagSet V)
    (hwf : set.WellFormed) (hok : (normalizeFlags ops flags set).1 = none) :
    ((normalizeFlags ops flags set).2.set.actual ≠ set.actual →
      ∃ a b, (normalizeFlags ops flags (normalizeFlags ops flags set).2.set).1 =
        some ("Cannot use two forms of the same flag: " ++ b ++ " " ++ a)) ∧
    ((normalizeFlags ops flags set).2.set.actual = set.actual →
      (∀ g ∈ flags, ∀ m ∈ g.names, m ∉ set.actual → ∀ w, set.Lookup m = some w →
        ∀ s, (ops.valueSet w s).2 = false → (ops.valueSet w s).1 = w) →
      (normalizeFlags ops flags set).2.set = set ∧
      (normalizeFlags ops flags (normalizeFlags ops flags set).2.set).1 = none ∧
      (normalizeFlags ops flags (normalizeFlags ops flags set).2.set).2.set = set) := by
  constructor
  · intro hne
    obtain ⟨ext, hext, hnew⟩ :=
      normalizeLoop_actual ops set.Visit flags { set := set, calls := [] }
    have hfr := normalizeLoop_frame ops set.Visit flags { set := set, calls := [] }
    have hext2 : (normalizeFlags ops flags set).2.set.actual = set.actual ++ ext := hext
    cases ext with
    | nil => exact absurd (by simpa using hext2) hne
    | cons n tl =>
      obtain ⟨_, hnv, hnd, g, hg, hng, A, hA⟩ := hnew n (List.mem_cons_self _ _)
      obtain ⟨hAn, hAv⟩ := explicitOf_mem hA
      have hd2 : Declared (normalizeFlags ops flags set).2.set.Visit
          (normalizeFlags ops flags set).2.set := by
        intro m hm
        have hm2 : m ∈ set.actual ++ n :: tl := hext2 ▸ hm
        have hsome : (set.Lookup m).isSome = true := by
          rcases List.mem_append.1 hm2 with h | h
          · exact hwf m h
          · exact (hnew m h).2.2.1
        exact (hfr.2.1 m).trans hsome
      have hA2 : A ∈ (normalizeFlags ops flags set).2.set.Visit := by
        show A ∈ (normalizeFlags ops flags set).2.set.actual
        rw [hext2]
        exact List.mem_append_left _ hAv
      have hn2 : n ∈ (normalizeFlags ops flags set).2.set.Visit := by
        show n ∈ (normalizeFlags ops flags set).2.set.actual
        rw [hext2]
        exact List.mem_append_right _ (List.mem_cons_self _ _)
      have hlen : 2 ≤ (g.explicitNames (normalizeFlags ops flags set).2.set.Visit).length :=
        two_mem_length (mem_explicitOf hAn hA2) (mem_explicitOf hng hn2)
          (fun e => hnv (e ▸ hAv))
      obtain ⟨_, _, _, a, b, _, _, _, _, herr⟩ := normalizeLoop_conflict ops
        (normalizeFlags ops flags set).2.set.Visit flags
        { set := (normalizeFlags ops flags set).2.set, calls := [] } hd2 ⟨g, hg, hlen⟩
      exact ⟨a, b, herr⟩
  · intro hact hrej
    have hset : (normalizeFlags ops flags set).2.set = set :=
      normalizeLoop_unchanged ops set.Visit flags { set := set, calls := [] } hrej
        (fun n hn => hn) hact
    refine ⟨hset, ?_, ?_⟩
    · rw [hset]; exact hok
    · rw [hset]; exact hset

/-- Witness of C3 amended: "a, b" with `a` given records `b`, and the second
call fails; "n, num" over integer lists with `n` given has its overwrite
rejected, and "a, q" with `a` given has its overwrite fail on the undeclared
`q`: in both the second call leaves the store as it was. -/
theorem normalizeFlags_second_call_witness :
    (∃ a b, (normalizeFlags goOps [Flag.mk "a, b"]
        (normalizeFlags goOps [Flag.mk "a, b"] (stringStore ["a"])).2.set).1 =
        some ("Cannot use two forms of the same flag: " ++ b ++ " " ++ a)) ∧
    ((normalizeFlags goOps [Flag.mk "n, num"] intSliceStore).2.set = intSliceStore ∧
      (normalizeFlags goOps [Flag.mk "n, num"]
        (normalizeFlags goOps [Flag.mk "n, num"] intSliceStore).2.set).1 = none ∧
      (normalizeFlags goOps [Flag.mk "n, num"]
        (normalizeFlags goOps [Flag.mk "n, num"] intSliceStore).2.set).2.set =
        intSliceStore) ∧
    ((normalizeFlags goOps [Flag.mk "a, q"] (stringStore ["a"])).2.set = stringStore ["a"] ∧
      (normalizeFlags goOps [Flag.mk "a, q"]
        (normalizeFlags goOps [Flag.mk "a, q"] (stringStore ["a"])).2.set).1 = none ∧
      (normalizeFlags goOps [Flag.mk "a, q"]
        (normalizeFlags goOps [Flag.mk "a, q"] (stringStore ["a"])).2.set).2.set =
        stringStore ["a"]) :=
  ⟨(normalizeFlags_second_call goOps [Flag.mk "a, b"] (stringStore ["a"])
      (by unfold FlagSet.WellFormed; decide) (by decide)).1 (by decide),
   (normalizeFlags_second_call goOps [Flag.mk "n, num"] intSliceStore
      (by unfold FlagSet.WellFormed; decide) (by decide)).2 (by decide)
      (fun _ _ m _ _ w hw s hs => by
        simp only [FlagSet.Lookup, intSliceStore, lookupCell] at hw
        repeat' split at hw
        all_goals first
          | (cases hw
             simp only [goOps, goSet] at hs ⊢
             split at hs <;> simp_all)
          | (exact Option.noConfusion hw)),
   (normalizeFlags_second_call goOps [Flag.mk "a, q"] (stringStore ["a"])
      (by unfold FlagSet.WellFormed; decide) (by decide)).2 (by decide)
      (fun _ _ m _ _ w hw s hs => by
        have hstr := stringStore_isStr _ m w hw
        cases w <;> first
          | exact hstr.elim
          | (simp [goOps, goSet] at hs))⟩

/-! ## Values held by address -/

theorem heapGet_heapPut_ne (h : List (Nat × V)) (p q : Nat) (w : V) (hq : q ≠ p) :
    heapGet (heapPut h p w) q = heapGet h q := by
  induction h with
  | nil => rfl
  | cons kv rest ih =>
    obtain ⟨k, v⟩ := kv
    by_cases hk : k = p
    · have hkq : ¬ k = q := fun e => hq (e.symm.trans hk)
      simp only [heapPut, if_pos hk, heapGet, if_neg hkq]
    · simp only [heapPut, if_neg hk, heapGet, ih]

theorem PtrSet_Set_frame (ops : ValueOps V) (set : PtrSet V) (name value : String) :
    (set.Set ops name value).1.names.formal = set.names.formal ∧
    ∀ q, (∀ p, set.names.Lookup name = some p → q ≠ p) →
      heapGet (set.Set ops name value).1.heap q = heapGet set.heap q := by
  cases hl : set.names.Lookup name with
  | none =>
    have e : set.Set ops name value = (set, false) := by simp only [PtrSet.Set, hl]
    rw [e]
    exact ⟨rfl, fun _ _ => rfl⟩
  | some p =>
    cases hh : heapGet set.heap p with
    | none =>
      have e : set.Set ops name value = (set, false) := by simp only [PtrSet.Set, hl, hh]
      rw [e]
      exact ⟨rfl, fun _ _ => rfl⟩
    | some v =>
      by_cases hr : (ops.valueSet v value).2 = true
      · have e : set.Set ops name value =
            ({ names := { set.names with
                          actual := if name ∈ set.names.actual then set.names.actual
                                    else set.names.actual ++ [name] },
               heap := heapPut set.heap p (ops.valueSet v value).1 }, true) := by
          simp only [PtrSet.Set, hl, hh, hr, if_true]
        rw [e]
        exact ⟨rfl, fun q hq => heapGet_heapPut_ne _ _ _ _ (hq p rfl)⟩
      · have e : set.Set ops name value =
            ({ set with heap := heapPut set.heap p (ops.valueSet v value).1 }, false) := by
          simp only [PtrSet.Set, hl, hh, hr]
          rfl
        rw [e]
        exact ⟨rfl, fun q hq => heapGet_heapPut_ne _ _ _ _ (hq p rfl)⟩

theorem copyFlagPtr_frame (ops : ValueOps V) (name ff : String) (set : PtrSet V) :
    (copyFlagPtr ops name ff set).names.formal = set.names.formal ∧
    ∀ q, (∀ p, set.names.Lookup name = some p → q ≠ p) →
      heapGet (copyFlagPtr ops name ff set).heap q = heapGet set.heap q := by
  cases hv : set.value ff with
  | none =>
    have e : copyFlagPtr ops name ff set = set := by simp only [copyFlagPtr, hv]
    rw [e]
    exact ⟨rfl, fun _ _ => rfl⟩
  | some v =>
    cases hs : ops.stringSlice v with
    | some _ =>
      have e : copyFlagPtr ops name ff set = set := by simp only [copyFlagPtr, hv, hs]
      rw [e]
      exact ⟨rfl, fun _ _ => rfl⟩
    | none =>
      have e : copyFlagPtr ops name ff set = (set.Set ops name (ops.valueString v)).1 := by
        simp only [copyFlagPtr, hv, hs]
      rw [e]
      exact PtrSet_Set_frame ops set name _

theorem Lookup_of_formal_eq {s t : FlagSet Nat} (h : t.formal = s.formal) (n : String) :
    t.Lookup n = s.Lookup n := by
  unfold FlagSet.Lookup
  rw [h]

theorem copyToUnsetPtr_frame (ops : ValueOps V) (visited : List String) (ff : String)
    (parts : List String) (set : PtrSet V) :
    (copyToUnsetPtr ops visited ff parts set).names.formal = set.names.formal ∧
    ∀ q, (∀ m ∈ parts.map Trim, m ∉ visited → ∀ p, set.names.Lookup m = some p → q ≠ p) →
      heapGet (copyToUnsetPtr ops visited ff parts set).heap q = heapGet set.heap q := by
  induction parts generalizing set with
  | nil => exact ⟨rfl, fun _ _ => rfl⟩
  | cons part rest ih =>
    by_cases hv : Trim part ∈ visited
    · simp only [copyToUnsetPtr, if_pos hv]
      obtain ⟨i1, i2⟩ := ih set
      exact ⟨i1, fun q hq => i2 q fun m hm => hq m (by simp [List.mem_map.1 hm])⟩
    · simp only [copyToUnsetPtr, if_neg hv]
      obtain ⟨c1, c2⟩ := copyFlagPtr_frame ops (Trim part) ff set
      obtain ⟨i1, i2⟩ := ih (copyFlagPtr ops (Trim part) ff set)
      refine ⟨i1.trans c1, fun q hq => ?_⟩
      rw [i2 q fun m hm hmv p hp => hq m (by simp [List.mem_map.1 hm]) hmv p
        ((Lookup_of_formal_eq c1 m).symm.trans hp)]
      exact c2 q fun p hp => hq (Trim part) (by simp) hv p hp

theorem normalizeLoopPtr_frame (ops : ValueOps V) (visited : List String) (gs : List Flag)
    (set : PtrSet V) :
    (normalizeLoopPtr ops visited gs set).2.names.formal = set.names.formal ∧
    ∀ q, (∀ g ∈ gs, (Split g.getName).length ≠ 1 → ∀ m ∈ g.names, m ∉ visited →
        ∀ p, set.names.Lookup m = some p → q ≠ p) →
      heapGet (normalizeLoopPtr ops visited gs set).2.heap q = heapGet set.heap q := by
  induction gs generalizing set with
  | nil => exact ⟨rfl, fun _ _ => rfl⟩
  | cons g rest ih =>
    have hrest : ∀ st : PtrSet V,
        (normalizeLoopPtr ops visited rest st).2.names.formal = st.names.formal ∧
        ∀ q, (∀ k ∈ g :: rest, (Split k.getName).length ≠ 1 → ∀ m ∈ k.names, m ∉ visited →
            ∀ p, st.names.Lookup m = some p → q ≠ p) →
          heapGet (normalizeLoopPtr ops visited rest st).2.heap q = heapGet st.heap q :=
      fun st => ⟨(ih st).1, fun q hq =>
        (ih st).2 q fun k hk => hq k (List.mem_cons_of_mem _ hk)⟩
    by_cases h1 : (Split g.getName).length = 1
    · simp only [normalizeLoopPtr, if_pos h1]
      exact hrest set
    · simp only [normalizeLoopPtr, if_neg h1]
      cases hfs : findSetFlag visited set.names (Split g.getName) none with
      | error e => exact ⟨rfl, fun _ _ => rfl⟩
      | ok r =>
        cases r with
        | none => exact hrest set
        | some ff =>
          obtain ⟨c1, c2⟩ := copyToUnsetPtr_frame ops visited ff (Split g.getName) set
          obtain ⟨i1, i2⟩ := hrest (copyToUnsetPtr ops visited ff (Split g.getName) set)
          refine ⟨i1.trans c1, fun q hq => ?_⟩
          show heapGet (normalizeLoopPtr ops visited rest _).2.heap q = _
          rw [i2 q fun k hk hk1 m hm hmv p hp => hq k hk hk1 m hm hmv p
            ((Lookup_of_formal_eq c1 m).symm.trans hp)]
          exact c2 q fun m hm hmv p hp => hq g (List.mem_cons_self _ _) h1 m hm hmv p hp

/-- C18, refuted as stated: the one collecting value of the declaration
"g, gen" is held by both names, and `g` was given with "1". `normalizeFlags`
returns no error, and its overwrite of `gen` changes the value the user
supplied for `g` from "1" to "1,1". -/
theorem normalizeFlagsPtr_changes_user_value :
    "g" ∈ sharedStore.names.actual ∧
    lookupStringPtr joinOps "g" sharedStore = "1" ∧
    (normalizeFlagsPtr joinOps [Flag.mk "g, gen"] sharedStore).1 = none ∧
    lookupStringPtr joinOps "g" (normalizeFlagsPtr joinOps [Flag.mk "g, gen"] sharedStore).2 =
      "1,1" := by
  decide

/-- C18, amended (user-supplied values are kept): whether `normalizeFlags`
succeeds or fails, a name that was in the explicit-set when it was called, and
a name that belongs to no declaration with two or more names, has the same
value afterwards, provided no other name holds the same `flag.Value`.
Declarations may share names. -/
theorem normalizeFlagsPtr_keeps_user_values (ops : ValueOps V) (flags : List Flag)
    (set : PtrSet V) (n : String)
    (h : n ∈ set.names.actual ∨ ∀ g ∈ flags, 2 ≤ (Split g.getName).length → n ∉ g.names)
    (hown : ∀ m, m ≠ n → ∀ p, set.names.Lookup m = some p → set.names.Lookup n ≠ some p) :
    (normalizeFlagsPtr ops flags set).2.value n = set.value n ∧
    lookupStringPtr ops n (normalizeFlagsPtr ops flags set).2 = lookupStringPtr ops n set := by
  obtain ⟨hformal, hheap⟩ := normalizeLoopPtr_frame ops set.names.Visit flags set
  have hval : (normalizeFlagsPtr ops flags set).2.value n = set.value n := by
    show (normalizeLoopPtr ops set.names.Visit flags set).2.value n = set.value n
    unfold PtrSet.value
    rw [Lookup_of_formal_eq hformal n]
    cases hl : set.names.Lookup n with
    | none => rfl
    | some q =>
      refine hheap q fun g hg hg1 m hm hmv p hp e => ?_
      by_cases hmn : m = n
      · subst hmn
        rcases h with h | h
        · exact hmv h
        · refine h g hg ?_ hm
          have := Split_length_pos g.getName
          omega
      · exact hown m hmn p hp (e ▸ hl)
  exact ⟨hval, by simp only [lookupStringPtr, hval]⟩

/-- Witness of C18 amended: each name of "g, gen" holds a value of its own, and
`g` was given. -/
theorem normalizeFlagsPtr_keeps_user_values_witness :
    (normalizeFlagsPtr joinOps [Flag.mk "g, gen"] ownedStore).2.value "g" =
      ownedStore.value "g" ∧
    lookupStringPtr joinOps "g" (normalizeFlagsPtr joinOps [Flag.mk "g, gen"] ownedStore).2 =
      lookupStringPtr joinOps "g" ownedStore :=
  normalizeFlagsPtr_keeps_user_values joinOps [Flag.mk "g, gen"] ownedStore "g"
    (Or.inl (by decide)) (fun m hm p hp hq => by
      have hg : ownedStore.names.Lookup "g" = some 0 := by decide
      rw [hg] at hq
      have hp0 : p = 0 := (Option.some.inj hq).symm
      subst hp0
      simp only [FlagSet.Lookup, ownedStore, lookupCell] at hp
      repeat' split at hp
      all_goals first
        | (rename_i e; exact hm e.symm)
        | (cases hp))

end Cli
